import Mathlib

/-!
# redditepub: the pagination-and-assembly pipeline of `download.go`

A shallow embedding of `getURL`, `fetchBody` and `run`.

* Go strings are modelled by `String` (text, not raw bytes); `strings.Contains`
  and `strings.ReplaceAll` are written out on character lists.
* The collaborators the program calls but does not define (SHA-256, the file
  system faults, the HTTP transport, `json.Unmarshal`, `blackfriday.Run`,
  `goquery`, `strings.ToLower`, the e-book writer) are the fields of `Env`.
  They are functions: the same URL gets the same response throughout a run.
* The mutable surroundings of a run (cache directory, standard output) and two
  counters (cache reads, network requests) are the fields of `World`. What
  `log.Printf` writes is not recorded.
* A Go run-time panic (index out of range, nil dereference) is a result of its
  own, `Outcome.panic`, distinct from a returned `error`.
* The `for nextPage != ""` loop need not terminate, so the chain loop takes
  fuel; `none` means the fuel ran out.
-/

namespace RedditEpub

/-! ## Results -/

/-- A Go `error` value, identified with its message. -/
abbrev Error := String

/-- How a piece of Go code ends: normally, by returning a non-nil `error`, or
by a run-time panic. -/
inductive Outcome (α : Type) where
  | ok (a : α)
  | error (e : Error)
  | panic (msg : String)
  deriving Repr, DecidableEq

/-! ## Strings -/

/-- Whether `sub` occurs in `s` as a contiguous block (on character lists). -/
def hasSubstr : List Char → List Char → Bool
  | [], sub => sub.isEmpty
  | c :: cs, sub => sub.isPrefixOf (c :: cs) || hasSubstr cs sub

/-- Go `strings.Contains(s, substr)`. -/
def Contains (s substr : String) : Bool :=
  hasSubstr s.data substr.data

/-- Left-to-right replacement of the non-overlapping occurrences of a
non-empty `old` by `new`; `skip` counts the characters of a matched occurrence
still to be dropped. -/
def replaceAllAux (old new : List Char) : Nat → List Char → List Char
  | _, [] => []
  | skip + 1, _ :: cs => replaceAllAux old new skip cs
  | 0, c :: cs =>
    if old.isPrefixOf (c :: cs) then new ++ replaceAllAux old new (old.length - 1) cs
    else c :: replaceAllAux old new 0 cs

/-- Go `strings.ReplaceAll(s, old, new)` for a non-empty `old` (the program
only calls it with the constant `"www.reddit.com"`). -/
def ReplaceAll (s old new : String) : String :=
  ⟨replaceAllAux old.data new.data 0 s.data⟩

/-! ## The decoded page (`Data`, `Document`) -/

/-- The fields of the Go struct `Data` that the program reads. The pointer
fields (`*string`) are options: `none` is the nil pointer. -/
structure Data where
  Author : String
  Body : Option String
  Selftext : Option String
  Title : Option String
  deriving Repr, DecidableEq

/-- One element of a `children` array. -/
structure Child where
  Data : Data
  Kind : String
  deriving Repr, DecidableEq

/-- The inner struct `Data` of a `Document` element, reduced to `Children`. -/
structure ListingData where
  Children : List Child
  deriving Repr, DecidableEq

/-- One element of the Go slice type `Document`. -/
structure Listing where
  Data : ListingData
  Kind : String
  deriving Repr, DecidableEq

/-- Go `type Document []struct{...}`. -/
abbrev Document := List Listing

/-! ## The book (`epub.Epub`) -/

/-- One call of `AddSection(body, sectionTitle, "", "")`. -/
structure Section where
  body : String
  title : String
  deriving Repr, DecidableEq

/-- The state of the `*epub.Epub` value `e`. -/
structure Epub where
  title : String
  author : String
  sections : List Section
  deriving Repr, DecidableEq

/-- Go `epub.NewEpub(title)`. -/
def NewEpub (title : String) : Epub :=
  { title := title, author := "", sections := [] }

/-- Go `e.SetAuthor(author)`. -/
def Epub.SetAuthor (e : Epub) (author : String) : Epub :=
  { e with author := author }

/-- Go `e.AddSection(body, sectionTitle, "", "")`, whose results the program
discards: with an empty internal file name the library picks a fresh one, so
the section is always appended. -/
def Epub.AddSection (e : Epub) (body sectionTitle : String) : Epub :=
  { e with sections := e.sections ++ [{ body := body, title := sectionTitle }] }

/-! ## Chapter source text (`run`, lines 258-271) -/

/-- The message of the panic raised by dereferencing a nil pointer. -/
def nilDeref : String := "invalid memory address or nil pointer dereference"

/-- The loop `for _, comment := range (*doc)[1].Data.Children` appending to
`body`; dereferencing a nil `Body` of a same-author comment panics. -/
def appendComments (author : String) : List Child → String → Outcome String
  | [], body => .ok body
  | comment :: rest, body =>
    if comment.Data.Author = author then
      match comment.Data.Body with
      | some b => appendComments author rest (body ++ ("\n\n---\n\n" ++ b))
      | none => .panic nilDeref
    else appendComments author rest body

/-- The opening post `(*doc)[0].Data.Children[0].Data`; both index
expressions panic when out of range. -/
def openingPost (doc : Document) : Outcome Data :=
  match doc with
  | [] => .panic "index out of range [0] with length 0"
  | l0 :: _ =>
    match l0.Data.Children with
    | [] => .panic "index out of range [0] with length 0"
    | c :: _ => .ok c.Data

/-- The text `body` that `run` hands to `blackfriday.Run` for the page
`nextPage`, given the already selected opening post. -/
def chapterSourceOf (nextPage : String) (post : Data) (doc : Document) : Outcome String :=
  match post.Title with
  | none => .panic nilDeref
  | some t =>
    match post.Selftext with
    | none => .panic nilDeref
    | some s =>
      match doc with
      | _ :: l1 :: _ =>
        match appendComments post.Author l1.Data.Children ("# " ++ t ++ "\n\n" ++ s) with
        | .ok body => .ok (body ++ ("\n\n[" ++ nextPage ++ "](" ++ nextPage ++ ")"))
        | .error e => .error e
        | .panic m => .panic m
      | _ => .panic "index out of range [1]"

/-- Lines 258-271 of `run`: the chapter source text for a decoded page. -/
def chapterSource (nextPage : String) (doc : Document) : Outcome String :=
  match openingPost doc with
  | .ok post => chapterSourceOf nextPage post doc
  | .error e => .error e
  | .panic m => .panic m

/-! ## Collaborators and surroundings -/

/-- A hyperlink element selected by `a[href]`: its `Text()` and the value of
its `href` attribute (what `AttrOr("href", "")` returns). -/
structure Link where
  Text : String
  href : String
  deriving Repr, DecidableEq

/-- The library functions and the behaviour of the outside world that the
program relies on. -/
structure Env where
  /-- The function `hex.EncodeToString(sha256.Sum256([]byte(url))[:])`. -/
  Sum256Hex : String → String
  /-- An error of `ioutil.ReadFile(path)` other than "does not exist". -/
  readFault : String → Option Error
  /-- An error of `http.NewRequest("GET", url, nil)`. -/
  newRequestFault : String → Option Error
  /-- The calls `http.DefaultClient.Do(req)` and `ioutil.ReadAll(resp.Body)`:
  the response body for a URL, or the error of either call. -/
  transport : String → Except Error String
  /-- An error of `ioutil.WriteFile(path, body, 0600)`. -/
  writeFault : String → Option Error
  /-- What a failed `ioutil.WriteFile(path, body, 0600)` leaves at `path`:
  `none` when the file could not be created, otherwise the bytes (possibly
  none) that reached the file, which was created or truncated before the
  write. -/
  writeLeaves : String → String → Option String
  /-- The call `json.Unmarshal(body, &doc)`. -/
  Unmarshal : String → Except Error Document
  /-- The call `blackfriday.Run([]byte(body))`. -/
  Run : String → String
  /-- The call `goquery.NewDocumentFromReader` followed by `Find("a[href]")`:
  the selected links in document order, or the error of the former. -/
  links : String → Except Error (List Link)
  /-- The function `strings.ToLower`. -/
  ToLower : String → String
  /-- The bytes that `e.WriteTo` produces for a book, or its error. -/
  WriteTo : Epub → Except Error String

/-- The mutable surroundings of a run. -/
structure World where
  /-- The cache directory: the content of each path, if the file exists. -/
  files : String → Option String
  /-- The number of `ioutil.ReadFile` calls so far (one per `getURL`). -/
  cacheReads : Nat
  /-- The number of requests handed to `http.DefaultClient.Do` so far. -/
  netCalls : Nat
  /-- What has been written to `os.Stdout`, oldest first. -/
  stdout : List String

/-! ## `getURL` and `fetchBody` -/

/-- The first two lines of `getURL`: the normalized URL. -/
def normalizeURL (url : String) : String :=
  ReplaceAll url "www.reddit.com" "old.reddit.com" ++ ".json"

/-- The path `filepath.Join("/tmp/", "redditepub-"+hashStr+".json")` for an
already normalized URL. -/
def cachePath (env : Env) (url : String) : String :=
  "/tmp/redditepub-" ++ env.Sum256Hex url ++ ".json"

/-- Go `getURL(url)`. -/
def getURL (env : Env) (url : String) (w : World) : Outcome String × World :=
  let url := normalizeURL url
  let cacheFile := cachePath env url
  let w := { w with cacheReads := w.cacheReads + 1 }
  match env.readFault cacheFile with
  | some err => (.error err, w)
  | none =>
    match w.files cacheFile with
    | some cacheBody => (.ok cacheBody, w)
    | none =>
      match env.newRequestFault url with
      | some err => (.error err, w)
      | none =>
        let w := { w with netCalls := w.netCalls + 1 }
        match env.transport url with
        | .error err => (.error err, w)
        | .ok body =>
          match env.writeFault cacheFile with
          | some err =>
            (.error err,
              { w with
                files := fun p =>
                  if p = cacheFile then env.writeLeaves cacheFile body else w.files p })
          | none =>
            (.ok body,
              { w with files := fun p => if p = cacheFile then some body else w.files p })

/-- Go `fetchBody(url)`. -/
def fetchBody (env : Env) (url : String) (w : World) : Outcome Document × World :=
  match getURL env url w with
  | (.error err, w) => (.error err, w)
  | (.panic m, w) => (.panic m, w)
  | (.ok body, w) =>
    match env.Unmarshal body with
    | .error err => (.error err, w)
    | .ok doc => (.ok doc, w)

/-! ## The link scan (`run`, lines 280-291) -/

/-- goquery `Selection.EachWithBreak`: `f` is called on each element in
order, with its index, until it returns `false`; `σ` is the state captured by
the closure. -/
def EachWithBreak {α σ : Type} (f : Nat → α → σ → σ × Bool) : Nat → List α → σ → σ
  | _, [], s => s
  | i, elem :: rest, s =>
    match f i elem s with
    | (s, true) => EachWithBreak f (i + 1) rest s
    | (s, false) => s

/-- The closure passed to `EachWithBreak`; the captured variable is
`nextPage`. -/
def linkCallback (env : Env) (_i : Nat) (elem : Link) (nextPage : String) : String × Bool :=
  let text := env.ToLower elem.Text
  if Contains text "next" || Contains text "forward" then
    let href := elem.href
    if Contains href "reddit.com" then (href, false) else (nextPage, true)
  else (nextPage, true)

/-- Lines 280-291: `nextPage = ""` followed by the scan of the links. -/
def resolveNext (env : Env) (links : List Link) : String :=
  EachWithBreak (linkCallback env) 0 links ""

/-! ## `run` -/

/-- Lines 258-291 of `run`, for the decoded page `doc` of `nextPage`: the new
value of `nextPage` and the book, as they are when the pass ends (normally, by
`return err`, or by a panic). -/
def pagePass (env : Env) (e : Epub) (nextPage : String) (doc : Document) :
    Outcome String × Epub :=
  match openingPost doc with
  | .error err => (.error err, e)
  | .panic m => (.panic m, e)
  | .ok post =>
    let author := post.Author
    let e := e.SetAuthor author
    -- log.Printf("%s - %s: %s", *post.Title, author, nextPage)
    match post.Title with
    | none => (.panic nilDeref, e)
    | some title =>
      match chapterSourceOf nextPage post doc with
      | .error err => (.error err, e)
      | .panic m => (.panic m, e)
      | .ok body =>
        let html := env.Run body
        let e := e.AddSection html title
        match env.links html with
        | .error err => (.error err, e)
        | .ok links => (.ok (resolveNext env links), e)

/-- One pass through the body of `for nextPage != ""` (lines 254-291): the
fetch of the page, then `pagePass` on the decoded page. -/
def iteration (env : Env) (e : Epub) (nextPage : String) (w : World) :
    Outcome String × Epub × World :=
  match fetchBody env nextPage w with
  | (.error err, w) => (.error err, e, w)
  | (.panic m, w) => (.panic m, e, w)
  | (.ok doc, w) => ((pagePass env e nextPage doc).1, (pagePass env e nextPage doc).2, w)

/-- The loop `for nextPage != ""`, with fuel: `none` when the fuel runs out
before the loop ends. -/
def chain (env : Env) : Nat → Epub → String → World → Option (Outcome Unit × Epub × World)
  | 0, _, _, _ => none
  | fuel + 1, e, nextPage, w =>
    if nextPage = "" then some (.ok (), e, w)
    else
      match iteration env e nextPage w with
      | (.ok next, e, w) => chain env fuel e next w
      | (.error err, e, w) => some (.error err, e, w)
      | (.panic m, e, w) => some (.panic m, e, w)

/-- The loop `for _, nextPage := range flag.Args()`; every chain gets the
same fuel. -/
def forArgs (env : Env) (fuel : Nat) : List String → Epub → World →
    Option (Outcome Unit × Epub × World)
  | [], e, w => some (.ok (), e, w)
  | nextPage :: rest, e, w =>
    match chain env fuel e nextPage w with
    | none => none
    | some (.ok _, e, w) => forArgs env fuel rest e w
    | some (.error err, e, w) => some (.error err, e, w)
    | some (.panic m, e, w) => some (.panic m, e, w)

/-- Go `run()`, for the value `title` of the flag and the positional
arguments `args`. The book is `none` when `run` ends before creating it. -/
def run (env : Env) (title : String) (args : List String) (w : World) (fuel : Nat) :
    Option (Outcome Unit × Option Epub × World) :=
  if title = "" then some (.error "must set title", none, w)
  else
    match forArgs env fuel args (NewEpub title) w with
    | none => none
    | some (.error err, e, w) => some (.error err, some e, w)
    | some (.panic m, e, w) => some (.panic m, some e, w)
    | some (.ok _, e, w) =>
      match env.WriteTo e with
      | .error err => some (.error err, some e, w)
      | .ok out => some (.ok (), some e, { w with stdout := w.stdout ++ [out] })

/-! ## Statement vocabulary -/

/-- The first test of the closure: the lower-cased visible text contains
`"next"` or `"forward"`. -/
def textMatches (env : Env) (l : Link) : Bool :=
  Contains (env.ToLower l.Text) "next" || Contains (env.ToLower l.Text) "forward"

/-- Both tests of the closure: the text matches and the target contains
`"reddit.com"`. -/
def qualifies (env : Env) (l : Link) : Bool :=
  textMatches env l && Contains l.href "reddit.com"

/-- The state of the loop `for nextPage != ""` after `k` passes from the
state `(e, nextPage, w)`, when each of them is entered (`nextPage` non-empty)
and ends normally; `none` otherwise. -/
def chainSteps (env : Env) : Nat → Epub → String → World → Option (Epub × String × World)
  | 0, e, nextPage, w => some (e, nextPage, w)
  | k + 1, e, nextPage, w =>
    if nextPage = "" then none
    else
      match iteration env e nextPage w with
      | (.ok next, e, w) => chainSteps env k e next w
      | (.error _, _, _) => none
      | (.panic _, _, _) => none

/-- The chapter sequence of the book a run ended with; empty when the run
did not end or ended before creating the book. -/
def chaptersOf (r : Option (Outcome Unit × Option Epub × World)) : List Section :=
  match r with
  | some (_, some e, _) => e.sections
  | _ => []

/-- The pages that the loop `for nextPage != ""` fetches from the state
`(e, nextPage, w)` within `fuel` passes, in order. -/
def chainPages (env : Env) : Nat → Epub → String → World → List String
  | 0, _, _, _ => []
  | fuel + 1, e, nextPage, w =>
    if nextPage = "" then []
    else
      nextPage ::
        match iteration env e nextPage w with
        | (.ok next, e, w) => chainPages env fuel e next w
        | (.error _, _, _) => []
        | (.panic _, _, _) => []

/-- The chapter sequences that `run` produces for each starting identifier
alone, concatenated in input order, each identifier starting in the world in
which the chain of the one before it ended (the cache persists from one to the
next); `none` when a chain fails or does not end within the fuel. -/
def chaptersAlone (env : Env) (title : String) (fuel : Nat) :
    List String → World → Option (List Section)
  | [], _ => some []
  | u :: rest, w =>
    match chain env fuel (NewEpub title) u w with
    | some (.ok _, _, w1) =>
      (chaptersAlone env title fuel rest w1).map
        (fun secs => chaptersOf (run env title [u] w fuel) ++ secs)
    | _ => none

/-- On the URLs of `S`, the cache `g` holds at the cache path of the URL what
the cache `f` holds, or else what a fetch starting from `f` would store there:
`f` has no entry, the request and the write meet no fault, and `g` holds the
response. -/
def Extends (env : Env) (S : String → Prop) (f g : String → Option String) : Prop :=
  ∀ x : String, S x → (g (cachePath env x) = f (cachePath env x) ∨
    (f (cachePath env x) = none ∧ env.newRequestFault x = none ∧
      env.writeFault (cachePath env x) = none ∧
      ∃ b, env.transport x = .ok b ∧ g (cachePath env x) = some b))

/-! ## Concrete pages and collaborators -/

/-- A decoded page: an opening post by `author` and the given comments. -/
def mkDoc (author title selftext : String) (comments : List Child) : Document :=
  [⟨⟨[⟨⟨author, none, some selftext, some title⟩, "t3"⟩]⟩, "Listing"⟩,
   ⟨⟨comments⟩, "Listing"⟩]

/-- A comment by `author` with the given body. -/
def mkComment (author : String) (body : Option String) : Child :=
  ⟨⟨author, body, none, none⟩, "t1"⟩

/-- A page by `ann` with one comment of hers and one headless comment by
`bob`. -/
def docAnn : Document :=
  mkDoc "ann" "t" "b" [mkComment "ann" (some "c1"), mkComment "bob" none]

/-- A page whose opening post has no title. -/
def docNoTitle : Document :=
  [⟨⟨[⟨⟨"ann", none, some "b", none⟩, "t3"⟩]⟩, "Listing"⟩, ⟨⟨[]⟩, "Listing"⟩]

/-- A page with title and selftext where a comment by the post's author has
no body. -/
def docNilBody : Document :=
  mkDoc "ann" "t" "b" [mkComment "ann" none]

/-- ASCII lower-casing, standing in for `strings.ToLower`. -/
def asciiLower (s : String) : String :=
  ⟨s.data.map Char.toLower⟩

/-- A small web: page `a1` links to `a2`, `a2` to `a3`, and `a3`, `b1` and
`nt` (a page without title) link nowhere. The response body of a URL is the
URL itself, the hash is the identity and rendering is the identity. -/
def demoEnv : Env where
  Sum256Hex := id
  readFault := fun _ => none
  newRequestFault := fun _ => none
  transport := fun url => .ok url
  writeFault := fun _ => none
  writeLeaves := fun _ _ => none
  Unmarshal := fun body =>
    if body = "reddit.com/a1.json" then .ok (mkDoc "ann" "A1" "x" [])
    else if body = "reddit.com/a2.json" then .ok (mkDoc "ann" "A2" "y" [])
    else if body = "reddit.com/a3.json" then .ok (mkDoc "ann" "A3" "z" [])
    else if body = "reddit.com/b1.json" then .ok (mkDoc "bob" "B1" "w" [])
    else if body = "reddit.com/nt.json" then .ok docNoTitle
    else .error "invalid character"
  Run := id
  links := fun html =>
    if html = "bad" then .error "malformed"
    else if Contains html "A1" then
      .ok [⟨"Next", "reddit.com/a2"⟩, ⟨"reddit.com/a1", "reddit.com/a1"⟩]
    else if Contains html "A2" then
      .ok [⟨"go FORWARD", "reddit.com/a3"⟩, ⟨"reddit.com/a2", "reddit.com/a2"⟩]
    else .ok []
  ToLower := asciiLower
  WriteTo := fun e => .ok e.title

/-- The web of `demoEnv` with the network down. -/
def envDown : Env :=
  { demoEnv with transport := fun _ => .error "connection refused" }

/-- An empty cache, nothing counted, nothing written. -/
def world0 : World :=
  { files := fun _ => none, cacheReads := 0, netCalls := 0, stdout := [] }

/-- The web of `demoEnv` where the response for page `a2` does not decode. -/
def envBroken : Env :=
  { demoEnv with
    Unmarshal := fun body =>
      if body = "reddit.com/a2.json" then .error "unexpected end of JSON input"
      else demoEnv.Unmarshal body }

/-- A web where every page decodes to the same post and the only link of a
rendered chapter is the footer of the page `reddit.com/next1`. -/
def envLoop : Env :=
  { demoEnv with
    Unmarshal := fun _ => .ok (mkDoc "ann" "T" "x" [])
    links := fun _ => .ok [⟨"reddit.com/next1", "reddit.com/next1"⟩] }

/-- The first pass of `demoEnv` from page `a1`. -/
def demoStep1 : Outcome String × Epub × World :=
  iteration demoEnv (NewEpub "Book") "reddit.com/a1" world0

/-- The second pass, for page `a2`. -/
def demoStep2 : Outcome String × Epub × World :=
  iteration demoEnv demoStep1.2.1 "reddit.com/a2" demoStep1.2.2

/-- The third pass, for page `a3`. -/
def demoStep3 : Outcome String × Epub × World :=
  iteration demoEnv demoStep2.2.1 "reddit.com/a3" demoStep2.2.2

/-- The pass of `envBroken` for page `b1`. -/
def brokenStepB : Outcome String × Epub × World :=
  iteration envBroken (NewEpub "Book") "reddit.com/b1" world0

/-- The pass of `envBroken` for page `a1`, after the chain of `b1`. -/
def brokenStepA1 : Outcome String × Epub × World :=
  iteration envBroken brokenStepB.2.1 "reddit.com/a1" brokenStepB.2.2

/-- The web of `demoEnv` with a hash that takes four values only. -/
def envFinite : Env :=
  { demoEnv with
    Sum256Hex := fun url =>
      if url = "reddit.com/a2.json" then "1"
      else if url = "reddit.com/a3.json" then "2"
      else if url = "reddit.com/b1.json" then "3"
      else "0" }

/-- The web of `demoEnv` with a full disk: every cache write fails and leaves
an empty file. -/
def envDiskFull : Env :=
  { demoEnv with
    writeFault := fun _ => some "no space left on device"
    writeLeaves := fun _ _ => some "" }

/-- The web of `demoEnv` where page `a1` links to the page `nt`, whose opening
post has no title. -/
def envToNt : Env :=
  { demoEnv with
    links := fun html =>
      if Contains html "A1" then .ok [⟨"next", "reddit.com/nt"⟩] else .ok [] }

/-- The web of `demoEnv` where the rendered chapter of page `a2` does not
parse. -/
def envBadLinks : Env :=
  { demoEnv with
    links := fun html =>
      if Contains html "A2" then .error "malformed" else demoEnv.links html }

/-- The pass of `envToNt` for page `b1`. -/
def ntStepB : Outcome String × Epub × World :=
  iteration envToNt (NewEpub "Book") "reddit.com/b1" world0

/-- The pass of `envToNt` for page `a1`, after the chain of `b1`. -/
def ntStepA1 : Outcome String × Epub × World :=
  iteration envToNt ntStepB.2.1 "reddit.com/a1" ntStepB.2.2

/-- The pass of `envBadLinks` for page `a1`. -/
def badStepA1 : Outcome String × Epub × World :=
  iteration envBadLinks (NewEpub "Book") "reddit.com/a1" world0

/-! ## Lemmas: strings -/

theorem isPrefixOf_iff_append (p l : List Char) :
    p.isPrefixOf l = true ↔ ∃ t, l = p ++ t := by
  induction p generalizing l with
  | nil => simp [List.isPrefixOf]
  | cons a p ih =>
    cases l with
    | nil => simp [List.isPrefixOf]
    | cons b l =>
      simp only [List.isPrefixOf, Bool.and_eq_true, beq_iff_eq, ih, List.cons_append,
        List.cons.injEq]
      constructor
      · rintro ⟨rfl, t, rfl⟩; exact ⟨t, rfl, rfl⟩
      · rintro ⟨t, rfl, rfl⟩; exact ⟨rfl, t, rfl⟩

/-- The function `hasSubstr` decides the occurrence of a contiguous block. -/
theorem hasSubstr_iff (s sub : List Char) :
    hasSubstr s sub = true ↔ ∃ a b, s = a ++ sub ++ b := by
  induction s with
  | nil =>
    simp only [hasSubstr, List.isEmpty_iff]
    constructor
    · rintro rfl; exact ⟨[], [], rfl⟩
    · rintro ⟨a, b, h⟩
      have := congrArg List.length h
      simp only [List.length_nil, List.length_append] at this
      exact List.length_eq_zero.mp (by omega)
  | cons c cs ih =>
    simp only [hasSubstr, Bool.or_eq_true, isPrefixOf_iff_append, ih]
    constructor
    · rintro (⟨t, h⟩ | ⟨a, b, h⟩)
      · exact ⟨[], t, by simpa using h⟩
      · exact ⟨c :: a, b, by simp [h]⟩
    · rintro ⟨a, b, h⟩
      cases a with
      | nil => exact Or.inl ⟨b, by simpa using h⟩
      | cons x a =>
        simp only [List.cons_append, List.cons.injEq] at h
        exact Or.inr ⟨a, b, h.2⟩
theorem normalizeURL_www :
    normalizeURL "https://www.reddit.com/r/HFY/comments/abc/" =
      "https://old.reddit.com/r/HFY/comments/abc/.json" := by
  decide

/-! ## Lemmas: chapter source text -/

theorem join_cons (x : String) (xs : List String) :
    String.join (x :: xs) = x ++ String.join xs := by
  have key : ∀ (l : List String) (acc : String),
      List.foldl (fun r s => r ++ s) acc l = acc ++ List.foldl (fun r s => r ++ s) "" l := by
    intro l
    induction l with
    | nil => intro acc; simp
    | cons y ys ih =>
      intro acc
      simp only [List.foldl_cons]
      rw [ih (acc ++ y), ih ("" ++ y)]
      simp [String.append_assoc]
  simp only [String.join, List.foldl_cons]
  rw [key]
  simp

theorem appendComments_ok (a : String) (bodyOf : Child → String) (cs : List Child)
    (acc : String)
    (hb : ∀ c ∈ cs, c.Data.Author = a → c.Data.Body = some (bodyOf c)) :
    appendComments a cs acc =
      .ok (acc ++ String.join
        ((cs.filter (fun c => decide (c.Data.Author = a))).map
          (fun c => "\n\n---\n\n" ++ bodyOf c))) := by
  induction cs generalizing acc with
  | nil => simp [appendComments, String.join]
  | cons c rest ih =>
    have hrest : ∀ c ∈ rest, c.Data.Author = a → c.Data.Body = some (bodyOf c) :=
      fun c hc => hb c (List.mem_cons_of_mem _ hc)
    by_cases hca : c.Data.Author = a
    · have hbody := hb c (List.mem_cons_self _ _) hca
      simp only [appendComments, hca, hbody, if_true, List.filter_cons, decide_True,
        List.map_cons]
      rw [ih _ hrest, join_cons]
      simp [String.append_assoc]
    · simp only [appendComments, hca, if_false, List.filter_cons, decide_False]
      exact ih _ hrest

/-! ## Lemmas: the link scan -/

theorem linkCallback_of_qualifies (env : Env) (i : Nat) (l : Link) (s : String)
    (h : qualifies env l = true) : linkCallback env i l s = (l.href, false) := by
  simp only [qualifies, textMatches, Bool.and_eq_true] at h
  simp [linkCallback, h.1, h.2]

theorem linkCallback_of_not_qualifies (env : Env) (i : Nat) (l : Link) (s : String)
    (h : qualifies env l = false) : linkCallback env i l s = (s, true) := by
  simp only [qualifies, textMatches, Bool.and_eq_false_iff] at h
  unfold linkCallback
  rcases h with h | h
  · simp [h]
  · simp [h]

theorem eachWithBreak_skip (env : Env) (pre rest : List Link) (i : Nat) (s : String)
    (hpre : ∀ x ∈ pre, qualifies env x = false) :
    EachWithBreak (linkCallback env) i (pre ++ rest) s =
      EachWithBreak (linkCallback env) (i + pre.length) rest s := by
  induction pre generalizing i with
  | nil => simp
  | cons x xs ih =>
    have hx := hpre x (List.mem_cons_self _ _)
    have hxs : ∀ y ∈ xs, qualifies env y = false :=
      fun y hy => hpre y (List.mem_cons_of_mem _ hy)
    simp only [List.cons_append, EachWithBreak, linkCallback_of_not_qualifies env i x s hx,
      List.append_eq]
    rw [ih (i + 1) hxs]
    congr 1
    simp only [List.length_cons]
    omega

theorem resolveNext_first (env : Env) (pre : List Link) (l : Link) (post : List Link)
    (hpre : ∀ x ∈ pre, qualifies env x = false) (hl : qualifies env l = true) :
    resolveNext env (pre ++ l :: post) = l.href := by
  unfold resolveNext
  rw [eachWithBreak_skip env pre (l :: post) 0 "" hpre]
  simp only [EachWithBreak, linkCallback_of_qualifies env _ l "" hl]

theorem resolveNext_none (env : Env) (links : List Link)
    (h : ∀ x ∈ links, qualifies env x = false) : resolveNext env links = "" := by
  unfold resolveNext
  have := eachWithBreak_skip env links [] 0 "" h
  simp only [List.append_nil] at this
  rw [this]
  simp [EachWithBreak]

/-! ## Lemmas: one fetch -/

theorem getURL_frame (env : Env) (u : String) (w : World) :
    (getURL env u w).2.stdout = w.stdout ∧
    (getURL env u w).2.cacheReads = w.cacheReads + 1 ∧
    w.netCalls ≤ (getURL env u w).2.netCalls ∧
    (getURL env u w).2.netCalls ≤ w.netCalls + 1 := by
  unfold getURL
  simp only
  split
  · simp
  · split
    · simp
    · split
      · simp
      · split
        · simp
        · split <;> simp

theorem fetchBody_frame (env : Env) (u : String) (w : World) :
    (fetchBody env u w).2.stdout = w.stdout ∧
    (fetchBody env u w).2.cacheReads = w.cacheReads + 1 ∧
    w.netCalls ≤ (fetchBody env u w).2.netCalls ∧
    (fetchBody env u w).2.netCalls ≤ w.netCalls + 1 := by
  have h := getURL_frame env u w
  unfold fetchBody
  split
  · next hg => rw [hg] at h; exact h
  · next hg => rw [hg] at h; exact h
  · next hg =>
    rw [hg] at h
    split <;> exact h

/-- Every pass through the loop body reads the cache once, issues at most one
request and leaves standard output alone, however it ends. -/
theorem iteration_frame (env : Env) (e : Epub) (u : String) (w : World) :
    (iteration env e u w).2.2.stdout = w.stdout ∧
    (iteration env e u w).2.2.cacheReads = w.cacheReads + 1 ∧
    w.netCalls ≤ (iteration env e u w).2.2.netCalls ∧
    (iteration env e u w).2.2.netCalls ≤ w.netCalls + 1 := by
  have h := fetchBody_frame env u w
  unfold iteration
  split
  · next hg => rw [hg] at h; exact h
  · next hg => rw [hg] at h; exact h
  · next hg => rw [hg] at h; exact h

theorem appendComments_panic (a : String) (cs : List Child) (acc : String)
    (h : ∃ c ∈ cs, c.Data.Author = a ∧ c.Data.Body = none) :
    appendComments a cs acc = .panic nilDeref := by
  induction cs generalizing acc with
  | nil => obtain ⟨c, hc, _⟩ := h; simp at hc
  | cons c rest ih =>
    by_cases hca : c.Data.Author = a
    · cases hbody : c.Data.Body with
      | none => simp [appendComments, hca, hbody]
      | some b =>
        simp only [appendComments, hca, hbody, if_true]
        apply ih
        obtain ⟨d, hd, hda, hdb⟩ := h
        rcases List.mem_cons.mp hd with rfl | hd
        · rw [hbody] at hdb; cases hdb
        · exact ⟨d, hd, hda, hdb⟩
    · simp only [appendComments, hca, if_false]
      apply ih
      obtain ⟨d, hd, hda, hdb⟩ := h
      rcases List.mem_cons.mp hd with rfl | hd
      · exact absurd hda hca
      · exact ⟨d, hd, hda, hdb⟩

theorem chapterSourceOf_ok (u t b : String) (post : Data) (l0 : Listing) (kind1 : String)
    (cs : List Child) (tail : Document) (bodyOf : Child → String)
    (hT : post.Title = some t) (hS : post.Selftext = some b)
    (hb : ∀ c ∈ cs, c.Data.Author = post.Author → c.Data.Body = some (bodyOf c)) :
    chapterSourceOf u post (l0 :: ⟨⟨cs⟩, kind1⟩ :: tail) =
      .ok ("# " ++ t ++ "\n\n" ++ b ++
        String.join ((cs.filter (fun c => decide (c.Data.Author = post.Author))).map
          (fun c => "\n\n---\n\n" ++ bodyOf c)) ++
        ("\n\n[" ++ u ++ "](" ++ u ++ ")")) := by
  simp only [chapterSourceOf, hT, hS, appendComments_ok post.Author bodyOf cs _ hb]

theorem run_missing_title (env : Env) (title u : String) (rest : List String)
    (w w1 : World) (doc : Document) (post : Data) (fuel : Nat)
    (htitle : title ≠ "") (hu : u ≠ "")
    (hf : fetchBody env u w = (.ok doc, w1)) (hp : openingPost doc = .ok post)
    (hT : post.Title = none) :
    run env title (u :: rest) w (fuel + 1) =
      some (.panic nilDeref, some ((NewEpub title).SetAuthor post.Author), w1) := by
  simp only [run, htitle, if_false, forArgs, chain, hu, iteration, pagePass, hf, hp, hT]

/-! ## Lemmas: the loops -/

theorem chain_done (env : Env) (n : Nat) (e : Epub) (w : World) :
    chain env (n + 1) e "" w = some (.ok (), e, w) := by
  simp [chain]

theorem chain_step (env : Env) (n : Nat) (e e1 : Epub) (u next : String) (w w1 : World)
    (hu : u ≠ "") (h : iteration env e u w = (.ok next, e1, w1)) :
    chain env (n + 1) e u w = chain env n e1 next w1 := by
  simp [chain, hu, h]

theorem chain_fail (env : Env) (n : Nat) (e e1 : Epub) (u : String) (err : Error)
    (w w1 : World) (hu : u ≠ "") (h : iteration env e u w = (.error err, e1, w1)) :
    chain env (n + 1) e u w = some (.error err, e1, w1) := by
  simp [chain, hu, h]

theorem chain_mono (env : Env) (n m : Nat) (e : Epub) (u : String) (w : World)
    (r : Outcome Unit × Epub × World) (h : chain env n e u w = some r) :
    chain env (n + m) e u w = some r := by
  induction n generalizing e u w with
  | zero => simp [chain] at h
  | succ n ih =>
    have hnm : n + 1 + m = (n + m) + 1 := by omega
    rw [hnm]
    unfold chain at h ⊢
    split
    · next hu => simpa [hu] using h
    · next hu =>
      simp only [hu, if_false] at h
      split
      · next next e1 w1 hit =>
        rw [hit] at h
        exact ih _ _ _ h
      · next err e1 w1 hit => rw [hit] at h; exact h
      · next msg e1 w1 hit => rw [hit] at h; exact h

theorem chainSteps_chain (env : Env) (k n : Nat) (e e2 : Epub) (u v : String) (w w2 : World)
    (h : chainSteps env k e u w = some (e2, v, w2)) :
    chain env (k + n) e u w = chain env n e2 v w2 := by
  induction k generalizing e u w with
  | zero =>
    simp only [chainSteps, Option.some.injEq, Prod.mk.injEq] at h
    obtain ⟨rfl, rfl, rfl⟩ := h
    simp
  | succ k ih =>
    have hkn : k + 1 + n = (k + n) + 1 := by omega
    rw [hkn]
    unfold chainSteps at h
    split at h
    · cases h
    · next hu =>
      split at h
      · next next e1 w1 hit =>
        rw [chain_step env _ e e1 u next w w1 hu hit]
        exact ih _ _ _ h
      · cases h
      · cases h

theorem chainSteps_stdout (env : Env) (k : Nat) (e e2 : Epub) (u v : String) (w w2 : World)
    (h : chainSteps env k e u w = some (e2, v, w2)) : w2.stdout = w.stdout := by
  induction k generalizing e u w with
  | zero =>
    simp only [chainSteps, Option.some.injEq, Prod.mk.injEq] at h
    obtain ⟨_, _, rfl⟩ := h
    rfl
  | succ k ih =>
    unfold chainSteps at h
    split at h
    · cases h
    · split at h
      · next next e1 w1 hit =>
        have hfr := (iteration_frame env e u w).1
        rw [hit] at hfr
        rw [ih _ _ _ h]
        exact hfr
      · cases h
      · cases h

theorem chain_stdout (env : Env) (n : Nat) (e e2 : Epub) (u : String) (w w2 : World)
    (r : Outcome Unit) (h : chain env n e u w = some (r, e2, w2)) : w2.stdout = w.stdout := by
  induction n generalizing e u w with
  | zero => simp [chain] at h
  | succ n ih =>
    unfold chain at h
    have hfr := (iteration_frame env e u w).1
    split at h
    · simp only [Option.some.injEq, Prod.mk.injEq] at h
      obtain ⟨_, _, rfl⟩ := h
      rfl
    · split at h
      · next next e1 w1 hit =>
        rw [hit] at hfr
        rw [ih _ _ _ h]
        exact hfr
      · next err e1 w1 hit =>
        rw [hit] at hfr
        simp only [Option.some.injEq, Prod.mk.injEq] at h
        obtain ⟨_, _, rfl⟩ := h
        exact hfr
      · next msg e1 w1 hit =>
        rw [hit] at hfr
        simp only [Option.some.injEq, Prod.mk.injEq] at h
        obtain ⟨_, _, rfl⟩ := h
        exact hfr

theorem forArgs_stdout (env : Env) (fuel : Nat) (args : List String) (e e2 : Epub)
    (w w2 : World) (r : Outcome Unit)
    (h : forArgs env fuel args e w = some (r, e2, w2)) : w2.stdout = w.stdout := by
  induction args generalizing e w with
  | nil =>
    simp only [forArgs, Option.some.injEq, Prod.mk.injEq] at h
    obtain ⟨_, _, rfl⟩ := h
    rfl
  | cons u rest ih =>
    unfold forArgs at h
    split at h
    · cases h
    · next x e1 w1 hc =>
      rw [ih _ _ h]
      exact chain_stdout env fuel e e1 u w w1 _ hc
    · next err e1 w1 hc =>
      simp only [Option.some.injEq, Prod.mk.injEq] at h
      obtain ⟨_, _, rfl⟩ := h
      exact chain_stdout env fuel e e1 u w w1 _ hc
    · next msg e1 w1 hc =>
      simp only [Option.some.injEq, Prod.mk.injEq] at h
      obtain ⟨_, _, rfl⟩ := h
      exact chain_stdout env fuel e e1 u w w1 _ hc

theorem forArgs_cons_ok (env : Env) (fuel : Nat) (u : String) (rest : List String)
    (e e1 : Epub) (w w1 : World) (x : Unit)
    (h : chain env fuel e u w = some (.ok x, e1, w1)) :
    forArgs env fuel (u :: rest) e w = forArgs env fuel rest e1 w1 := by
  simp [forArgs, h]

theorem forArgs_cons_error (env : Env) (fuel : Nat) (u : String) (rest : List String)
    (e e1 : Epub) (w w1 : World) (err : Error)
    (h : chain env fuel e u w = some (.error err, e1, w1)) :
    forArgs env fuel (u :: rest) e w = some (.error err, e1, w1) := by
  simp [forArgs, h]

theorem forArgs_append_ok (env : Env) (fuel : Nat) (pre rest : List String) (e e1 : Epub)
    (w w1 : World) (h : forArgs env fuel pre e w = some (.ok (), e1, w1)) :
    forArgs env fuel (pre ++ rest) e w = forArgs env fuel rest e1 w1 := by
  induction pre generalizing e w with
  | nil =>
    simp only [forArgs, Option.some.injEq, Prod.mk.injEq] at h
    obtain ⟨_, rfl, rfl⟩ := h
    rfl
  | cons u us ih =>
    simp only [List.cons_append]
    unfold forArgs at h
    split at h
    · cases h
    · next x e2 w2 hc =>
      rw [forArgs_cons_ok env fuel u _ e e2 w w2 x hc]
      exact ih _ _ h
    · simp at h
    · simp at h

/-- A pass that ends normally has fetched and decoded the page, found its
opening post with a title, built the chapter text, appended the rendered
chapter, and scanned its links. -/
theorem iteration_ok_inv (env : Env) (e e1 : Epub) (u next : String) (w w1 : World)
    (h : iteration env e u w = (.ok next, e1, w1)) :
    ∃ doc post t body ls, fetchBody env u w = (.ok doc, w1) ∧ openingPost doc = .ok post ∧
      post.Title = some t ∧ chapterSourceOf u post doc = .ok body ∧
      env.links (env.Run body) = .ok ls ∧ next = resolveNext env ls ∧
      e1 = (e.SetAuthor post.Author).AddSection (env.Run body) t := by
  unfold iteration at h
  split at h
  · simp at h
  · simp at h
  · next doc w2 hf =>
    simp only [Prod.mk.injEq] at h
    obtain ⟨h1, h2, rfl⟩ := h
    unfold pagePass at h1 h2
    split at h1
    · simp at h1
    · simp at h1
    · next post hp =>
      simp only [hp] at h2
      simp only at h1
      split at h1
      · simp at h1
      · next t hT =>
        simp only [hT] at h2
        split at h1
        · simp at h1
        · simp at h1
        · next body hsrc =>
          simp only [hsrc] at h2
          split at h1
          · simp at h1
          · next ls hls =>
            simp only [hls] at h2
            simp only [Outcome.ok.injEq] at h1
            exact ⟨doc, post, t, body, ls, hf, hp, hT, hsrc, hls, h1.symm, h2.symm⟩

theorem iteration_ok_sections (env : Env) (e e1 : Epub) (u next : String) (w w1 : World)
    (h : iteration env e u w = (.ok next, e1, w1)) :
    ∃ s, e1.sections = e.sections ++ [s] := by
  obtain ⟨doc, post, t, body, ls, _, _, _, _, _, _, rfl⟩ := iteration_ok_inv env e e1 u next w w1 h
  exact ⟨_, rfl⟩

theorem run_of_forArgs_ok (env : Env) (title : String) (args : List String) (w w1 : World)
    (fuel : Nat) (e1 : Epub) (x : Unit) (htitle : title ≠ "")
    (h : forArgs env fuel args (NewEpub title) w = some (.ok x, e1, w1)) :
    run env title args w fuel =
      match env.WriteTo e1 with
      | .error err => some (.error err, some e1, w1)
      | .ok out => some (.ok (), some e1, { w1 with stdout := w1.stdout ++ [out] }) := by
  simp only [run, htitle, if_false, h]

theorem run_of_forArgs_error (env : Env) (title : String) (args : List String) (w w1 : World)
    (fuel : Nat) (e1 : Epub) (err : Error) (htitle : title ≠ "")
    (h : forArgs env fuel args (NewEpub title) w = some (.error err, e1, w1)) :
    run env title args w fuel = some (.error err, some e1, w1) := by
  simp only [run, htitle, if_false, h]

/-! ## Lemmas: a page that is in the cache -/

theorem getURL_hit (env : Env) (u b : String) (w : World)
    (hrf : env.readFault (cachePath env (normalizeURL u)) = none)
    (hc : w.files (cachePath env (normalizeURL u)) = some b) :
    getURL env u w = (.ok b, { w with cacheReads := w.cacheReads + 1 }) := by
  simp [getURL, hrf, hc]

theorem getURL_ok_cached (env : Env) (u b : String) (w w1 : World)
    (h : getURL env u w = (.ok b, w1)) :
    env.readFault (cachePath env (normalizeURL u)) = none ∧
      w1.files (cachePath env (normalizeURL u)) = some b := by
  unfold getURL at h
  simp only at h
  split at h
  · simp at h
  · next hrf =>
    split at h
    · next c hc =>
      simp only [Prod.mk.injEq, Outcome.ok.injEq] at h
      obtain ⟨rfl, rfl⟩ := h
      exact ⟨hrf, hc⟩
    · split at h
      · simp at h
      · split at h
        · simp at h
        · split at h
          · simp at h
          · simp only [Prod.mk.injEq, Outcome.ok.injEq] at h
            obtain ⟨rfl, rfl⟩ := h
            exact ⟨hrf, by simp⟩

theorem fetchBody_ok_inv (env : Env) (u : String) (doc : Document) (w w1 : World)
    (h : fetchBody env u w = (.ok doc, w1)) :
    ∃ b, getURL env u w = (.ok b, w1) ∧ env.Unmarshal b = .ok doc := by
  unfold fetchBody at h
  split at h
  · simp at h
  · simp at h
  · next b w2 hg =>
    split at h
    · simp at h
    · next d hd =>
      simp only [Prod.mk.injEq, Outcome.ok.injEq] at h
      obtain ⟨rfl, rfl⟩ := h
      exact ⟨b, hg, hd⟩

theorem fetchBody_hit (env : Env) (u b : String) (doc : Document) (w : World)
    (hrf : env.readFault (cachePath env (normalizeURL u)) = none)
    (hc : w.files (cachePath env (normalizeURL u)) = some b)
    (hun : env.Unmarshal b = .ok doc) :
    fetchBody env u w = (.ok doc, { w with cacheReads := w.cacheReads + 1 }) := by
  simp [fetchBody, getURL_hit env u b w hrf hc, hun]

theorem chapterSource_ok_inv (u body : String) (doc : Document)
    (h : chapterSource u doc = .ok body) :
    ∃ post t, openingPost doc = .ok post ∧ post.Title = some t ∧
      chapterSourceOf u post doc = .ok body := by
  unfold chapterSource at h
  split at h
  · next post hp =>
    cases hT : post.Title with
    | none => simp [chapterSourceOf, hT] at h
    | some t => exact ⟨post, t, hp, hT, h⟩
  · cases h
  · cases h

theorem iteration_of_fetch (env : Env) (e : Epub) (u t body : String) (doc : Document)
    (post : Data) (ls : List Link) (w w1 : World)
    (hf : fetchBody env u w = (.ok doc, w1)) (hp : openingPost doc = .ok post)
    (hT : post.Title = some t) (hsrc : chapterSourceOf u post doc = .ok body)
    (hls : env.links (env.Run body) = .ok ls) :
    iteration env e u w =
      (.ok (resolveNext env ls), (e.SetAuthor post.Author).AddSection (env.Run body) t, w1) := by
  simp only [iteration, pagePass, hf, hp, hT, hsrc, hls]

theorem contains_ne_empty (u : String) (h : Contains u "reddit.com" = true) : u ≠ "" := by
  rintro rfl
  revert h
  decide

/-- A page that is in the cache and links to itself: every pass ends normally
with the same page as continuation, so the loop never ends. -/
theorem self_link_loop (env : Env) (u b t body : String) (doc : Document) (post : Data)
    (ls : List Link) (hu : u ≠ "")
    (hrf : env.readFault (cachePath env (normalizeURL u)) = none)
    (hun : env.Unmarshal b = .ok doc) (hp : openingPost doc = .ok post)
    (hT : post.Title = some t) (hsrc : chapterSourceOf u post doc = .ok body)
    (hls : env.links (env.Run body) = .ok ls) (hself : resolveNext env ls = u) :
    (∀ (fuel : Nat) (e : Epub) (w : World),
      w.files (cachePath env (normalizeURL u)) = some b → chain env fuel e u w = none) ∧
    (∀ (k : Nat) (e : Epub) (w : World),
      w.files (cachePath env (normalizeURL u)) = some b →
      ∃ e1 w1, chainSteps env k e u w = some (e1, u, w1) ∧
        w1.cacheReads = w.cacheReads + k) := by
  have hit : ∀ (e : Epub) (w : World), w.files (cachePath env (normalizeURL u)) = some b →
      iteration env e u w = (.ok u, (e.SetAuthor post.Author).AddSection (env.Run body) t,
        { w with cacheReads := w.cacheReads + 1 }) := by
    intro e w hc
    rw [iteration_of_fetch env e u t body doc post ls w _
      (fetchBody_hit env u b doc w hrf hc hun) hp hT hsrc hls, hself]
  constructor
  · intro fuel
    induction fuel with
    | zero => intro e w _; rfl
    | succ n ih =>
      intro e w hc
      rw [chain_step env n e _ u u w _ hu (hit e w hc)]
      exact ih _ _ hc
  · intro k
    induction k with
    | zero => intro e w _; exact ⟨e, w, rfl, rfl⟩
    | succ k ih =>
      intro e w hc
      obtain ⟨e1, w1, h1, h2⟩ := ih ((e.SetAuthor post.Author).AddSection (env.Run body) t)
        { w with cacheReads := w.cacheReads + 1 } hc
      refine ⟨e1, w1, ?_, ?_⟩
      · simp only [chainSteps, hu, if_false, hit e w hc]
        exact h1
      · rw [h2]
        simp only
        omega

/-! ## Lemmas: runs from a fuller cache -/

theorem cachePath_hash (env : Env) (x y : String)
    (h : cachePath env x = cachePath env y) : env.Sum256Hex x = env.Sum256Hex y := by
  have h2 := congrArg String.data h
  simp only [cachePath, String.data_append] at h2
  exact String.ext (List.append_cancel_left (List.append_cancel_right h2))

theorem extends_refl (env : Env) (S : String → Prop) (f : String → Option String) :
    Extends env S f f :=
  fun _ _ => Or.inl rfl

theorem extends_trans (env : Env) (S : String → Prop) (f g k : String → Option String)
    (h1 : Extends env S f g) (h2 : Extends env S g k) : Extends env S f k := by
  intro x hx
  rcases h2 x hx with hk | ⟨hg, hnr, hwf, b, htr, hkb⟩
  · rcases h1 x hx with hg | ⟨hf, hnr, hwf, b, htr, hgb⟩
    · exact Or.inl (hk.trans hg)
    · exact Or.inr ⟨hf, hnr, hwf, b, htr, hk.trans hgb⟩
  · rcases h1 x hx with hgf | ⟨hf, _, _, c, _, hgc⟩
    · exact Or.inr ⟨hgf ▸ hg, hnr, hwf, b, htr, hkb⟩
    · rw [hg] at hgc
      cases hgc

theorem extends_update_both (env : Env) (S : String → Prop) (f g : String → Option String)
    (p : String) (val : Option String) (h : Extends env S f g) :
    Extends env S (fun q => if q = p then val else f q)
      (fun q => if q = p then val else g q) := by
  intro x hx
  by_cases hxp : cachePath env x = p
  · left; simp [hxp]
  · simpa [hxp] using h x hx

theorem extends_update_left (env : Env) (S : String → Prop) (f g : String → Option String)
    (p b : String) (hg : g p = some b) (h : Extends env S f g) :
    Extends env S (fun q => if q = p then some b else f q) g := by
  intro x hx
  by_cases hxp : cachePath env x = p
  · left; simp [hxp, hg]
  · simpa [hxp] using h x hx

/-- From a fuller cache `getURL` returns the same result, and the caches
stay related. -/
theorem getURL_lockstep (env : Env) (S : String → Prop) (u : String) (w v : World)
    (hS : S (normalizeURL u)) (hext : Extends env S w.files v.files) :
    (getURL env u w).1 = (getURL env u v).1 ∧
      Extends env S (getURL env u w).2.files (getURL env u v).2.files := by
  unfold getURL
  simp only
  cases hrf : env.readFault (cachePath env (normalizeURL u)) with
  | some err => exact ⟨rfl, hext⟩
  | none =>
    rcases hext (normalizeURL u) hS with hsame | ⟨hwn, hnr, hwf, b, htr, hvb⟩
    · rw [hsame]
      cases hc : w.files (cachePath env (normalizeURL u)) with
      | some c => exact ⟨rfl, hext⟩
      | none =>
        cases hnr : env.newRequestFault (normalizeURL u) with
        | some err => exact ⟨rfl, hext⟩
        | none =>
          cases htr : env.transport (normalizeURL u) with
          | error err => exact ⟨rfl, hext⟩
          | ok b =>
            cases hwf : env.writeFault (cachePath env (normalizeURL u)) with
            | some err => exact ⟨rfl, extends_update_both env S _ _ _ _ hext⟩
            | none => exact ⟨rfl, extends_update_both env S _ _ _ _ hext⟩
    · simp only [hwn, hvb, hnr, htr, hwf]
      exact ⟨trivial, extends_update_left env S _ _ _ b hvb hext⟩

/-- A call of `getURL` that succeeds was a hit, or was a miss without fault
that stored the response. -/
theorem getURL_ok_cases (env : Env) (u b : String) (w w1 : World)
    (h : getURL env u w = (.ok b, w1)) :
    w1.files = w.files ∨
    (w.files (cachePath env (normalizeURL u)) = none ∧
      env.newRequestFault (normalizeURL u) = none ∧
      env.writeFault (cachePath env (normalizeURL u)) = none ∧
      env.transport (normalizeURL u) = .ok b ∧
      w1.files = fun p => if p = cachePath env (normalizeURL u) then some b else w.files p) := by
  unfold getURL at h
  simp only at h
  split at h
  · simp at h
  · split at h
    · simp only [Prod.mk.injEq, Outcome.ok.injEq] at h
      obtain ⟨_, rfl⟩ := h
      exact Or.inl rfl
    · next hc =>
      split at h
      · simp at h
      · next hnr =>
        split at h
        · simp at h
        · next body htr =>
          split at h
          · simp at h
          · next hwf =>
            simp only [Prod.mk.injEq, Outcome.ok.injEq] at h
            obtain ⟨rfl, rfl⟩ := h
            exact Or.inr ⟨hc, hnr, hwf, htr, rfl⟩

/-- When no two URLs of `S` share a hash, the cache after a call of `getURL`
that succeeds extends the cache before it. -/
theorem getURL_extends_ok (env : Env) (S : String → Prop)
    (hinj : ∀ x y : String, S x → S y → env.Sum256Hex x = env.Sum256Hex y → x = y)
    (u b : String) (w w1 : World) (hS : S (normalizeURL u))
    (h : getURL env u w = (.ok b, w1)) : Extends env S w.files w1.files := by
  rcases getURL_ok_cases env u b w w1 h with hsame | ⟨hwn, hnr, hwf, htr, hfiles⟩
  · rw [hsame]
    exact extends_refl env S _
  · rw [hfiles]
    intro x hx
    by_cases hxp : cachePath env x = cachePath env (normalizeURL u)
    · right
      have hxu : x = normalizeURL u := hinj x _ hx hS (cachePath_hash env _ _ hxp)
      subst hxu
      exact ⟨hwn, hnr, hwf, b, htr, by simp⟩
    · left
      simp [hxp]

theorem fetchBody_lockstep (env : Env) (S : String → Prop) (u : String) (w v : World)
    (hS : S (normalizeURL u)) (hext : Extends env S w.files v.files) :
    (fetchBody env u w).1 = (fetchBody env u v).1 ∧
      Extends env S (fetchBody env u w).2.files (fetchBody env u v).2.files := by
  obtain ⟨h1, h2⟩ := getURL_lockstep env S u w v hS hext
  unfold fetchBody
  rcases hw : getURL env u w with ⟨rw, w1⟩
  rcases hv : getURL env u v with ⟨rv, v1⟩
  rw [hw, hv] at h1 h2
  simp only at h1 h2
  subst h1
  cases rw with
  | error err => exact ⟨rfl, h2⟩
  | panic m => exact ⟨rfl, h2⟩
  | ok body =>
    simp only
    cases env.Unmarshal body with
    | error err => exact ⟨rfl, h2⟩
    | ok doc => exact ⟨rfl, h2⟩

/-- The result of `pagePass` does not depend on the book, and what it
appends to the book does not either. -/
theorem pagePass_book (env : Env) (e e2 : Epub) (u : String) (doc : Document) :
    (pagePass env e u doc).1 = (pagePass env e2 u doc).1 ∧
      ∃ added, (pagePass env e u doc).2.sections = e.sections ++ added ∧
        (pagePass env e2 u doc).2.sections = e2.sections ++ added := by
  unfold pagePass
  cases openingPost doc with
  | error err => exact ⟨rfl, [], by simp, by simp⟩
  | panic m => exact ⟨rfl, [], by simp, by simp⟩
  | ok post =>
    simp only
    cases post.Title with
    | none => exact ⟨rfl, [], by simp [Epub.SetAuthor], by simp [Epub.SetAuthor]⟩
    | some t =>
      simp only
      cases chapterSourceOf u post doc with
      | error err => exact ⟨rfl, [], by simp [Epub.SetAuthor], by simp [Epub.SetAuthor]⟩
      | panic m => exact ⟨rfl, [], by simp [Epub.SetAuthor], by simp [Epub.SetAuthor]⟩
      | ok body =>
        simp only
        cases env.links (env.Run body) with
        | error err =>
          exact ⟨rfl, [⟨env.Run body, t⟩], by simp [Epub.SetAuthor, Epub.AddSection],
            by simp [Epub.SetAuthor, Epub.AddSection]⟩
        | ok ls =>
          exact ⟨rfl, [⟨env.Run body, t⟩], by simp [Epub.SetAuthor, Epub.AddSection],
            by simp [Epub.SetAuthor, Epub.AddSection]⟩

/-- One pass from a fuller cache and another book: same result, same
chapters appended, and the caches stay related. -/
theorem iteration_lockstep (env : Env) (S : String → Prop) (e e2 : Epub) (u : String)
    (w v : World) (hS : S (normalizeURL u)) (hext : Extends env S w.files v.files) :
    (iteration env e u w).1 = (iteration env e2 u v).1 ∧
      Extends env S (iteration env e u w).2.2.files (iteration env e2 u v).2.2.files ∧
      ∃ added, (iteration env e u w).2.1.sections = e.sections ++ added ∧
        (iteration env e2 u v).2.1.sections = e2.sections ++ added := by
  obtain ⟨h1, h2⟩ := fetchBody_lockstep env S u w v hS hext
  unfold iteration
  rcases hw : fetchBody env u w with ⟨rw, w1⟩
  rcases hv : fetchBody env u v with ⟨rv, v1⟩
  rw [hw, hv] at h1 h2
  simp only at h1 h2
  subst h1
  cases rw with
  | error err => exact ⟨rfl, h2, [], by simp, by simp⟩
  | panic m => exact ⟨rfl, h2, [], by simp, by simp⟩
  | ok doc =>
    obtain ⟨hr, added, ha1, ha2⟩ := pagePass_book env e e2 u doc
    exact ⟨hr, h2, added, ha1, ha2⟩

theorem iteration_extends_ok (env : Env) (S : String → Prop)
    (hinj : ∀ x y : String, S x → S y → env.Sum256Hex x = env.Sum256Hex y → x = y)
    (e e1 : Epub) (u next : String) (w w1 : World) (hS : S (normalizeURL u))
    (h : iteration env e u w = (.ok next, e1, w1)) : Extends env S w.files w1.files := by
  obtain ⟨doc, _, _, _, _, hf, _⟩ := iteration_ok_inv env e e1 u next w w1 h
  obtain ⟨b, hg, _⟩ := fetchBody_ok_inv env u doc w w1 hf
  exact getURL_extends_ok env S hinj u b w w1 hS hg

theorem chain_lockstep (env : Env) (S : String → Prop) (n : Nat) (e e2 e1 : Epub)
    (u : String) (w v w1 : World) (r : Outcome Unit)
    (hpages : ∀ x ∈ chainPages env n e u w, S (normalizeURL x))
    (hext : Extends env S w.files v.files)
    (h : chain env n e u w = some (r, e1, w1)) :
    ∃ e3 v1, chain env n e2 u v = some (r, e3, v1) ∧ Extends env S w1.files v1.files ∧
      ∃ added, e1.sections = e.sections ++ added ∧ e3.sections = e2.sections ++ added := by
  induction n generalizing e e2 u w v with
  | zero => simp [chain] at h
  | succ n ih =>
    unfold chain at h ⊢
    by_cases hu : u = ""
    · simp only [hu, if_true, Option.some.injEq, Prod.mk.injEq] at h ⊢
      obtain ⟨rfl, rfl, rfl⟩ := h
      exact ⟨e2, v, ⟨rfl, rfl, rfl⟩, hext, [], by simp, by simp⟩
    · simp only [hu, if_false] at h ⊢
      simp only [chainPages, hu, if_false, List.mem_cons, forall_eq_or_imp] at hpages
      obtain ⟨hS, hrest⟩ := hpages
      obtain ⟨hr, hx, added, ha1, ha2⟩ := iteration_lockstep env S e e2 u w v hS hext
      generalize iteration env e u w = iw at h hr hx ha1 hrest
      generalize iteration env e2 u v = iv at hr hx ha2 ⊢
      obtain ⟨rw, ew, ww⟩ := iw
      obtain ⟨rv, ev, vv⟩ := iv
      simp only at hr hx ha1 ha2
      subst hr
      cases rw with
      | ok next =>
        simp only at h hrest ⊢
        obtain ⟨e3, v1, hc, hx1, added1, hb1, hb2⟩ := ih ew ev next ww vv hrest hx h
        exact ⟨e3, v1, hc, hx1, added ++ added1, by rw [hb1, ha1, List.append_assoc],
          by rw [hb2, ha2, List.append_assoc]⟩
      | error err =>
        simp only [Option.some.injEq, Prod.mk.injEq] at h ⊢
        obtain ⟨rfl, rfl, rfl⟩ := h
        exact ⟨ev, vv, ⟨rfl, rfl, rfl⟩, hx, added, ha1, ha2⟩
      | panic m =>
        simp only [Option.some.injEq, Prod.mk.injEq] at h ⊢
        obtain ⟨rfl, rfl, rfl⟩ := h
        exact ⟨ev, vv, ⟨rfl, rfl, rfl⟩, hx, added, ha1, ha2⟩

theorem chain_extends_ok (env : Env) (S : String → Prop)
    (hinj : ∀ x y : String, S x → S y → env.Sum256Hex x = env.Sum256Hex y → x = y)
    (n : Nat) (e e1 : Epub) (u : String) (w w1 : World)
    (hpages : ∀ x ∈ chainPages env n e u w, S (normalizeURL x))
    (h : chain env n e u w = some (.ok (), e1, w1)) : Extends env S w.files w1.files := by
  induction n generalizing e u w with
  | zero => simp [chain] at h
  | succ n ih =>
    unfold chain at h
    by_cases hu : u = ""
    · simp only [hu, if_true, Option.some.injEq, Prod.mk.injEq] at h
      obtain ⟨_, _, rfl⟩ := h
      exact extends_refl env S _
    · simp only [hu, if_false] at h
      simp only [chainPages, hu, if_false, List.mem_cons, forall_eq_or_imp] at hpages
      obtain ⟨hS, hrest⟩ := hpages
      generalize hit : iteration env e u w = iw at h hrest
      obtain ⟨rw, ew, ww⟩ := iw
      cases rw with
      | ok next =>
        simp only at h hrest
        exact extends_trans env S _ _ _
          (iteration_extends_ok env S hinj e ew u next w ww hS hit) (ih ew next ww hrest h)
      | error err => simp at h
      | panic m => simp at h

theorem chaptersOf_run_single (env : Env) (title u : String) (w wu : World) (eu : Epub)
    (fuel : Nat) (x : Unit) (htitle : title ≠ "")
    (h : chain env fuel (NewEpub title) u w = some (.ok x, eu, wu)) :
    chaptersOf (run env title [u] w fuel) = eu.sections := by
  have hfor : forArgs env fuel [u] (NewEpub title) w = some (.ok (), eu, wu) := by
    rw [forArgs_cons_ok env fuel u [] _ eu w wu x h]
    rfl
  rw [run_of_forArgs_ok env title [u] w wu fuel eu () htitle hfor]
  cases env.WriteTo eu <;> rfl

/-- When the chains of the starting identifiers, taken one at a time, each into
a new book and each in the world in which the one before ended, all end
normally, the loops over the whole list, from any book and any cache that
holds the same files, end normally and append the same chapters. -/
theorem forArgs_alone (env : Env) (title : String) (htitle : title ≠ "") (fuel : Nat)
    (args : List String) (w : World) (secs : List Section) (e : Epub) (v : World)
    (hext : Extends env (fun _ => True) w.files v.files)
    (h : chaptersAlone env title fuel args w = some secs) :
    ∃ e1 v1, forArgs env fuel args e v = some (.ok (), e1, v1) ∧
      e1.sections = e.sections ++ secs := by
  induction args generalizing w secs e v with
  | nil =>
    simp only [chaptersAlone, Option.some.injEq] at h
    subst h
    exact ⟨e, v, rfl, by simp⟩
  | cons u rest ih =>
    unfold chaptersAlone at h
    split at h
    · next x eu w1 hc =>
      cases hrest : chaptersAlone env title fuel rest w1 with
      | none => simp [hrest] at h
      | some secs1 =>
        simp only [hrest, Option.map_some', Option.some.injEq] at h
        subst h
        obtain ⟨e3, v1, hc2, hx1, added, ha1, ha2⟩ :=
          chain_lockstep env (fun _ => True) fuel (NewEpub title) e eu u w v w1 _
            (fun _ _ => trivial) hext hc
        obtain ⟨e1, v2, hf, hs⟩ := ih w1 secs1 e3 v1 hx1 hrest
        refine ⟨e1, v2, ?_, ?_⟩
        · rw [forArgs_cons_ok env fuel u rest e e3 v v1 x hc2]
          exact hf
        · have hadded : added = eu.sections := by simpa [NewEpub] using ha1.symm
          rw [hs, ha2, chaptersOf_run_single env title u w w1 eu fuel x htitle hc, hadded,
            List.append_assoc]
    · simp at h

/-- When no two pages read by the chains taken alone share a hash and every
chain, taken alone from the cache `w`, ends normally, the loops over the whole
list, from a cache that extends `w` and any book, end normally and append the
chapters of the chains in input order. -/
theorem forArgs_concat (env : Env) (S : String → Prop)
    (hinj : ∀ x y : String, S x → S y → env.Sum256Hex x = env.Sum256Hex y → x = y)
    (title : String) (htitle : title ≠ "") (fuel : Nat) (w : World) (args : List String)
    (e : Epub) (v : World) (hext : Extends env S w.files v.files)
    (hpages : ∀ u ∈ args, ∀ x ∈ chainPages env fuel (NewEpub title) u w, S (normalizeURL x))
    (halone : ∀ u ∈ args, ∃ eu wu,
      chain env fuel (NewEpub title) u w = some (.ok (), eu, wu)) :
    ∃ e1 v1, forArgs env fuel args e v = some (.ok (), e1, v1) ∧
      e1.sections =
        e.sections ++ args.flatMap (fun u => chaptersOf (run env title [u] w fuel)) := by
  induction args generalizing e v with
  | nil => exact ⟨e, v, rfl, by simp⟩
  | cons u rest ih =>
    obtain ⟨eu, wu, hc⟩ := halone u (List.mem_cons_self _ _)
    have hpu := hpages u (List.mem_cons_self _ _)
    obtain ⟨e3, v1, hc2, hx1, added, ha1, ha2⟩ :=
      chain_lockstep env S fuel (NewEpub title) e eu u w v wu _ hpu hext hc
    have hwv1 : Extends env S w.files v1.files :=
      extends_trans env S _ _ _
        (chain_extends_ok env S hinj fuel _ eu u w wu hpu hc) hx1
    obtain ⟨e1, v2, hf, hs⟩ := ih e3 v1 hwv1
      (fun x hx => hpages x (List.mem_cons_of_mem _ hx))
      (fun x hx => halone x (List.mem_cons_of_mem _ hx))
    refine ⟨e1, v2, ?_, ?_⟩
    · rw [forArgs_cons_ok env fuel u rest e e3 v v1 () hc2]
      exact hf
    · have hadded : added = eu.sections := by simpa [NewEpub] using ha1.symm
      rw [hs, ha2, List.flatMap_cons,
        chaptersOf_run_single env title u w wu eu fuel () htitle hc, hadded,
        List.append_assoc]

/-! ## Lemmas: where an error of a pass comes from -/

theorem appendComments_ne_error (a : String) (cs : List Child) (acc : String) (err : Error) :
    appendComments a cs acc ≠ .error err := by
  induction cs generalizing acc with
  | nil => simp [appendComments]
  | cons c rest ih =>
    unfold appendComments
    split
    · split
      · exact ih _
      · simp
    · exact ih _

theorem chapterSourceOf_ne_error (u : String) (post : Data) (doc : Document) (err : Error) :
    chapterSourceOf u post doc ≠ .error err := by
  unfold chapterSourceOf
  split
  · simp
  · split
    · simp
    · split
      · split
        · simp
        · next e2 h => exact absurd h (appendComments_ne_error _ _ _ _)
        · simp
      · simp

theorem openingPost_ne_error (doc : Document) (err : Error) :
    openingPost doc ≠ .error err := by
  unfold openingPost
  split
  · simp
  · split <;> simp

theorem fetchBody_error_inv (env : Env) (u : String) (err : Error) (w w1 : World)
    (h : fetchBody env u w = (.error err, w1)) :
    getURL env u w = (.error err, w1) ∨
      ∃ b, getURL env u w = (.ok b, w1) ∧ env.Unmarshal b = .error err := by
  unfold fetchBody at h
  split at h
  · next err2 w2 hg =>
    simp only [Prod.mk.injEq, Outcome.error.injEq] at h
    obtain ⟨rfl, rfl⟩ := h
    exact Or.inl hg
  · simp at h
  · next b w2 hg =>
    split at h
    · next err2 hd =>
      simp only [Prod.mk.injEq, Outcome.error.injEq] at h
      obtain ⟨rfl, rfl⟩ := h
      exact Or.inr ⟨b, hg, hd⟩
    · simp at h

/-- A pass returns an error only from the fetch, from the decoding, or from
the parse that precedes the link scan. -/
theorem iteration_error_inv (env : Env) (e e1 : Epub) (u : String) (err : Error)
    (w w1 : World) (h : iteration env e u w = (.error err, e1, w1)) :
    getURL env u w = (.error err, w1) ∨
    (∃ b, getURL env u w = (.ok b, w1) ∧ env.Unmarshal b = .error err) ∨
    (∃ doc body, fetchBody env u w = (.ok doc, w1) ∧ chapterSource u doc = .ok body ∧
      env.links (env.Run body) = .error err) := by
  unfold iteration at h
  split at h
  · next err2 w2 hf =>
    simp only [Prod.mk.injEq, Outcome.error.injEq] at h
    obtain ⟨rfl, _, rfl⟩ := h
    rcases fetchBody_error_inv env u _ w _ hf with hg | hd
    · exact Or.inl hg
    · exact Or.inr (Or.inl hd)
  · simp at h
  · next doc w2 hf =>
    simp only [Prod.mk.injEq] at h
    obtain ⟨h1, _, rfl⟩ := h
    right; right
    unfold pagePass at h1
    split at h1
    · next err2 hp => exact absurd hp (openingPost_ne_error _ _)
    · simp at h1
    · next post hp =>
      simp only at h1
      split at h1
      · simp at h1
      · next t hT =>
        split at h1
        · next err2 hsrc => exact absurd hsrc (chapterSourceOf_ne_error _ _ _ _)
        · simp at h1
        · next body hsrc =>
          split at h1
          · next err2 hls =>
            simp only [Outcome.error.injEq] at h1
            subst h1
            exact ⟨doc, body, hf, by simp only [chapterSource, hp, hsrc], hls⟩
          · simp at h1

/-! ## Lemmas: a pass that stops the run -/

theorem chain_panic (env : Env) (n : Nat) (e e1 : Epub) (u m : String)
    (w w1 : World) (hu : u ≠ "") (h : iteration env e u w = (.panic m, e1, w1)) :
    chain env (n + 1) e u w = some (.panic m, e1, w1) := by
  simp [chain, hu, h]

theorem forArgs_cons_panic (env : Env) (fuel : Nat) (u : String) (rest : List String)
    (e e1 : Epub) (w w1 : World) (m : String)
    (h : chain env fuel e u w = some (.panic m, e1, w1)) :
    forArgs env fuel (u :: rest) e w = some (.panic m, e1, w1) := by
  simp [forArgs, h]

theorem run_of_forArgs_panic (env : Env) (title : String) (args : List String) (w w1 : World)
    (fuel : Nat) (e1 : Epub) (m : String) (htitle : title ≠ "")
    (h : forArgs env fuel args (NewEpub title) w = some (.panic m, e1, w1)) :
    run env title args w fuel = some (.panic m, some e1, w1) := by
  simp only [run, htitle, if_false, h]

/-- A pass that returns an error, reached after the chains of `pre` and `k`
passes of the chain of `u`, makes `run` return that error in the world the
pass leaves, with standard output as it was before the run. -/
theorem run_error_at (env : Env) (title u v : String) (pre post : List String) (err : Error)
    (e1 e2 e3 : Epub) (w w1 w2 w3 : World) (k fuel : Nat)
    (htitle : title ≠ "")
    (hpre : forArgs env fuel pre (NewEpub title) w = some (.ok (), e1, w1))
    (hsteps : chainSteps env k e1 u w1 = some (e2, v, w2)) (hv : v ≠ "")
    (hfuel : k < fuel)
    (hfail : iteration env e2 v w2 = (.error err, e3, w3)) :
    run env title (pre ++ u :: post) w fuel = some (.error err, some e3, w3) ∧
    w3.stdout = w.stdout ∧ w3.cacheReads = w2.cacheReads + 1 ∧
    w3.netCalls ≤ w2.netCalls + 1 := by
  have hfr := iteration_frame env e2 v w2
  rw [hfail] at hfr
  simp only at hfr
  obtain ⟨n, rfl⟩ : ∃ n, fuel = k + (n + 1) := ⟨fuel - k - 1, by omega⟩
  have hchain : chain env (k + (n + 1)) e1 u w1 = some (.error err, e3, w3) := by
    rw [chainSteps_chain env k (n + 1) e1 e2 u v w1 w2 hsteps]
    exact chain_fail env n e2 e3 v err w2 w3 hv hfail
  have hfor : forArgs env (k + (n + 1)) (pre ++ u :: post) (NewEpub title) w =
      some (.error err, e3, w3) := by
    rw [forArgs_append_ok env _ pre (u :: post) _ e1 w w1 hpre]
    exact forArgs_cons_error env _ u post e1 e3 w1 w3 err hchain
  refine ⟨run_of_forArgs_error env title _ w w3 _ e3 err htitle hfor, ?_, hfr.2.1, hfr.2.2.2⟩
  rw [hfr.1, chainSteps_stdout env k e1 e2 u v w1 w2 hsteps,
    forArgs_stdout env _ pre _ e1 w w1 _ hpre]

/-- A pass that panics, reached after the chains of `pre` and `k` passes of
the chain of `u`, makes `run` end by that panic in the world the pass leaves,
with standard output as it was before the run. -/
theorem run_panic_at (env : Env) (title u v m : String) (pre post : List String)
    (e1 e2 e3 : Epub) (w w1 w2 w3 : World) (k fuel : Nat)
    (htitle : title ≠ "")
    (hpre : forArgs env fuel pre (NewEpub title) w = some (.ok (), e1, w1))
    (hsteps : chainSteps env k e1 u w1 = some (e2, v, w2)) (hv : v ≠ "")
    (hfuel : k < fuel)
    (hfail : iteration env e2 v w2 = (.panic m, e3, w3)) :
    run env title (pre ++ u :: post) w fuel = some (.panic m, some e3, w3) ∧
    w3.stdout = w.stdout := by
  have hfr := iteration_frame env e2 v w2
  rw [hfail] at hfr
  simp only at hfr
  obtain ⟨n, rfl⟩ : ∃ n, fuel = k + (n + 1) := ⟨fuel - k - 1, by omega⟩
  have hchain : chain env (k + (n + 1)) e1 u w1 = some (.panic m, e3, w3) := by
    rw [chainSteps_chain env k (n + 1) e1 e2 u v w1 w2 hsteps]
    exact chain_panic env n e2 e3 v m w2 w3 hv hfail
  have hfor : forArgs env (k + (n + 1)) (pre ++ u :: post) (NewEpub title) w =
      some (.panic m, e3, w3) := by
    rw [forArgs_append_ok env _ pre (u :: post) _ e1 w w1 hpre]
    exact forArgs_cons_panic env _ u post e1 e3 w1 w3 m hchain
  refine ⟨run_of_forArgs_panic env title _ w w3 _ e3 m htitle hfor, ?_⟩
  rw [hfr.1, chainSteps_stdout env k e1 e2 u v w1 w2 hsteps,
    forArgs_stdout env _ pre _ e1 w w1 _ hpre]

theorem iteration_of_getURL_error (env : Env) (e : Epub) (u : String) (err : Error)
    (w w1 : World) (h : getURL env u w = (.error err, w1)) :
    iteration env e u w = (.error err, e, w1) := by
  simp only [iteration, fetchBody, h]

theorem iteration_of_unmarshal_error (env : Env) (e : Epub) (u b : String) (err : Error)
    (w w1 : World) (h : getURL env u w = (.ok b, w1)) (hd : env.Unmarshal b = .error err) :
    iteration env e u w = (.error err, e, w1) := by
  simp only [iteration, fetchBody, h, hd]

theorem iteration_of_links_error (env : Env) (e : Epub) (u t body : String) (err : Error)
    (doc : Document) (post : Data) (w w1 : World)
    (hf : fetchBody env u w = (.ok doc, w1)) (hp : openingPost doc = .ok post)
    (hT : post.Title = some t) (hsrc : chapterSourceOf u post doc = .ok body)
    (hls : env.links (env.Run body) = .error err) :
    iteration env e u w =
      (.error err, (e.SetAuthor post.Author).AddSection (env.Run body) t, w1) := by
  simp only [iteration, pagePass, hf, hp, hT, hsrc, hls]

theorem iteration_of_missing_title (env : Env) (e : Epub) (u : String) (doc : Document)
    (post : Data) (w w1 : World)
    (hf : fetchBody env u w = (.ok doc, w1)) (hp : openingPost doc = .ok post)
    (hT : post.Title = none) :
    iteration env e u w = (.panic nilDeref, e.SetAuthor post.Author, w1) := by
  simp only [iteration, pagePass, hf, hp, hT]

/-! ## The claims -/

/-- C1: for a decoded page whose opening post has title `t`, selftext `b` and
author `a`, and whose top-level comments `cs` by `a` all have a body, the
chapter source text that `run` builds for the page `u` is `"# " ++ t`, a blank
line, `b`, then a rule and the body for exactly the comments whose author is
`a`, in their order, then the footer `[u](u)`; and that text, rendered, is the
section `run` appends. The footer is there whatever the comments are. -/
theorem chapter_source_text (u t b a : String) (post : Data) (k0 kind0 kind1 : String)
    (more cs : List Child) (tail doc : Document) (bodyOf : Child → String)
    (hdoc : doc = ⟨⟨⟨post, k0⟩ :: more⟩, kind0⟩ :: ⟨⟨cs⟩, kind1⟩ :: tail)
    (hT : post.Title = some t) (hS : post.Selftext = some b) (hA : post.Author = a)
    (hb : ∀ c ∈ cs, c.Data.Author = a → c.Data.Body = some (bodyOf c)) :
    ∃ text : String,
      text = "# " ++ t ++ "\n\n" ++ b ++
        String.join ((cs.filter (fun c => decide (c.Data.Author = a))).map
          (fun c => "\n\n---\n\n" ++ bodyOf c)) ++
        ("\n\n[" ++ u ++ "](" ++ u ++ ")") ∧
      chapterSource u doc = .ok text ∧
      ∀ (env : Env) (e : Epub) (w w1 : World), fetchBody env u w = (.ok doc, w1) →
        (iteration env e u w).2.1.sections = e.sections ++ [⟨env.Run text, t⟩] := by
  subst hdoc hA
  have hsrc := chapterSourceOf_ok u t b post ⟨⟨⟨post, k0⟩ :: more⟩, kind0⟩ kind1 cs tail
    bodyOf hT hS hb
  refine ⟨_, rfl, ?_, ?_⟩
  · simp only [chapterSource, openingPost, hsrc]
  · intro env e w w1 hf
    simp only [iteration, pagePass, hf, openingPost, hT, hsrc]
    split <;> simp [Epub.AddSection, Epub.SetAuthor]

theorem chapter_source_text_witness :
    chapterSource "u" docAnn = .ok "# t\n\nb\n\n---\n\nc1\n\n[u](u)" := by
  obtain ⟨text, htext, hsrc, _⟩ :=
    chapter_source_text "u" "t" "b" "ann" ⟨"ann", none, some "b", some "t"⟩ "t3" "Listing"
      "Listing" [] [mkComment "ann" (some "c1"), mkComment "bob" none] [] docAnn
      (fun c => c.Data.Body.getD "") rfl rfl rfl rfl (by decide)
  rw [hsrc, htext]
  decide

/-- C2: the link scan returns the target of the first link, in document
order, whose lower-cased text contains `"next"` or `"forward"` and whose target
contains `"reddit.com"`, whatever follows it; and it returns the empty
identifier when no link text contains `"next"` or `"forward"`, whatever the
targets are. -/
theorem resolve_next_first_match (env : Env) (links : List Link) :
    (∀ (pre : List Link) (l : Link) (post : List Link), links = pre ++ l :: post →
      (∀ x ∈ pre, ¬ ((Contains (env.ToLower x.Text) "next" = true ∨
          Contains (env.ToLower x.Text) "forward" = true) ∧
          Contains x.href "reddit.com" = true)) →
      (Contains (env.ToLower l.Text) "next" = true ∨
        Contains (env.ToLower l.Text) "forward" = true) →
      Contains l.href "reddit.com" = true →
      resolveNext env links = l.href) ∧
    ((∀ x ∈ links, Contains (env.ToLower x.Text) "next" = false ∧
        Contains (env.ToLower x.Text) "forward" = false) →
      resolveNext env links = "") := by
  constructor
  · intro pre l post hl hpre htext hhref
    subst hl
    apply resolveNext_first
    · intro x hx
      have := hpre x hx
      cases hq : qualifies env x with
      | false => rfl
      | true =>
        exfalso
        apply this
        simpa [qualifies, textMatches] using hq
    · simpa [qualifies, textMatches] using And.intro htext hhref
  · intro h
    apply resolveNext_none
    intro x hx
    have := h x hx
    simp [qualifies, textMatches, this.1, this.2]

theorem resolve_next_first_match_witness :
    resolveNext demoEnv [⟨"prev", "reddit.com/a0"⟩, ⟨"NEXT", "example.com/x"⟩,
        ⟨"Next", "reddit.com/a2"⟩, ⟨"forward", "reddit.com/zz"⟩] = "reddit.com/a2" ∧
      resolveNext demoEnv [⟨"prev", "reddit.com/a0"⟩, ⟨"index", "reddit.com/a2"⟩] = "" :=
  ⟨(resolve_next_first_match demoEnv _).1
      [⟨"prev", "reddit.com/a0"⟩, ⟨"NEXT", "example.com/x"⟩] ⟨"Next", "reddit.com/a2"⟩
      [⟨"forward", "reddit.com/zz"⟩] rfl (by decide) (by decide) (by decide),
    (resolve_next_first_match demoEnv _).2 (by decide)⟩

/-- C3: when page 1 resolves to page 2, page 2 to page 3 and page 3 to no
continuation, `run` on the single starting URL ends for every fuel of at least
4, with a book of exactly the three chapters of the pages in visit order, after
exactly three fetches; it then writes the book. -/
theorem chain_of_three (env : Env) (title u1 u2 u3 : String) (e1 e2 e3 : Epub)
    (w0 w1 w2 w3 : World) (fuel : Nat)
    (htitle : title ≠ "") (h1 : u1 ≠ "") (h2 : u2 ≠ "") (h3 : u3 ≠ "")
    (p1 : iteration env (NewEpub title) u1 w0 = (.ok u2, e1, w1))
    (p2 : iteration env e1 u2 w1 = (.ok u3, e2, w2))
    (p3 : iteration env e2 u3 w2 = (.ok "", e3, w3))
    (hfuel : 4 ≤ fuel) :
    ∃ s1 s2 s3 : Section,
      e1.sections = [s1] ∧ e2.sections = [s1, s2] ∧ e3.sections = [s1, s2, s3] ∧
      w3.cacheReads = w0.cacheReads + 3 ∧
      run env title [u1] w0 fuel =
        match env.WriteTo e3 with
        | .error err => some (.error err, some e3, w3)
        | .ok out => some (.ok (), some e3, { w3 with stdout := w3.stdout ++ [out] }) := by
  obtain ⟨s1, hs1⟩ := iteration_ok_sections env _ _ _ _ _ _ p1
  obtain ⟨s2, hs2⟩ := iteration_ok_sections env _ _ _ _ _ _ p2
  obtain ⟨s3, hs3⟩ := iteration_ok_sections env _ _ _ _ _ _ p3
  have c1 := (iteration_frame env (NewEpub title) u1 w0).2.1
  have c2 := (iteration_frame env e1 u2 w1).2.1
  have c3 := (iteration_frame env e2 u3 w2).2.1
  rw [p1] at c1
  rw [p2] at c2
  rw [p3] at c3
  simp only at c1 c2 c3
  have hs1 : e1.sections = [s1] := by simpa [NewEpub] using hs1
  have hs2 : e2.sections = [s1, s2] := by rw [hs2, hs1]; rfl
  have hs3 : e3.sections = [s1, s2, s3] := by rw [hs3, hs2]; rfl
  refine ⟨s1, s2, s3, hs1, hs2, hs3, by omega, ?_⟩
  obtain ⟨n, rfl⟩ : ∃ n, fuel = n + 4 := ⟨fuel - 4, by omega⟩
  have hchain : chain env (n + 4) (NewEpub title) u1 w0 = some (.ok (), e3, w3) := by
    rw [chain_step env (n + 3) _ e1 u1 u2 w0 w1 h1 p1,
      chain_step env (n + 2) _ e2 u2 u3 w1 w2 h2 p2,
      chain_step env (n + 1) _ e3 u3 "" w2 w3 h3 p3, chain_done]
  have hfor : forArgs env (n + 4) [u1] (NewEpub title) w0 = some (.ok (), e3, w3) := by
    rw [forArgs_cons_ok env _ u1 [] _ e3 w0 w3 () hchain]
    rfl
  exact run_of_forArgs_ok env title [u1] w0 w3 _ e3 () htitle hfor

theorem chain_of_three_witness :
    ∃ s1 s2 s3 : Section,
      demoStep1.2.1.sections = [s1] ∧ demoStep2.2.1.sections = [s1, s2] ∧
      demoStep3.2.1.sections = [s1, s2, s3] ∧
      demoStep3.2.2.cacheReads = world0.cacheReads + 3 ∧
      run demoEnv "Book" ["reddit.com/a1"] world0 4 =
        match demoEnv.WriteTo demoStep3.2.1 with
        | .error err => some (.error err, some demoStep3.2.1, demoStep3.2.2)
        | .ok out => some (.ok (), some demoStep3.2.1,
            { demoStep3.2.2 with stdout := demoStep3.2.2.stdout ++ [out] }) :=
  chain_of_three demoEnv "Book" "reddit.com/a1" "reddit.com/a2" "reddit.com/a3"
    demoStep1.2.1 demoStep2.2.1 demoStep3.2.1 world0 demoStep1.2.2 demoStep2.2.2
    demoStep3.2.2 4 (by decide) (by decide) (by decide) (by decide) rfl rfl rfl (by decide)

/-- C4: chains are never interleaved, for every list of starting identifiers.
First, when the chains of the identifiers, taken one at a time, each into a
new book and each starting with the cache as the one before left it, all end
without failure, `run` on the whole list ends (normally, or by the error of the
final write) with a book whose chapter sequence is the concatenation, in input
order, of the chapter sequences that `run` produces for each identifier alone.
Second, the same holds with every identifier taken alone from the one initial
world, provided no two pages read by those chains share a hash. -/
theorem chains_concatenate (env : Env) (title : String) (w : World) (fuel : Nat)
    (htitle : title ≠ "") :
    (∀ (args : List String) (secs : List Section),
      chaptersAlone env title fuel args w = some secs →
      ∃ r e wf, run env title args w fuel = some (r, some e, wf) ∧
        (r = .ok () ∨ ∃ err, r = .error err ∧ env.WriteTo e = .error err) ∧
        e.sections = secs) ∧
    (∀ args : List String,
      (∀ u ∈ args, ∃ eu wu, chain env fuel (NewEpub title) u w = some (.ok (), eu, wu)) →
      (∀ u1 ∈ args, ∀ u2 ∈ args,
        ∀ x ∈ chainPages env fuel (NewEpub title) u1 w,
        ∀ y ∈ chainPages env fuel (NewEpub title) u2 w,
        env.Sum256Hex (normalizeURL x) = env.Sum256Hex (normalizeURL y) →
        normalizeURL x = normalizeURL y) →
      ∃ r e wf, run env title args w fuel = some (r, some e, wf) ∧
        (r = .ok () ∨ ∃ err, r = .error err ∧ env.WriteTo e = .error err) ∧
        e.sections = args.flatMap (fun u => chaptersOf (run env title [u] w fuel))) := by
  have hrun : ∀ (args : List String) (e1 : Epub) (v1 : World) (secs : List Section),
      forArgs env fuel args (NewEpub title) w = some (.ok (), e1, v1) →
      e1.sections = (NewEpub title).sections ++ secs →
      ∃ r e wf, run env title args w fuel = some (r, some e, wf) ∧
        (r = .ok () ∨ ∃ err, r = .error err ∧ env.WriteTo e = .error err) ∧
        e.sections = secs := by
    intro args e1 v1 secs hf hs
    have hs2 : e1.sections = secs := by simpa [NewEpub] using hs
    rw [run_of_forArgs_ok env title args w v1 fuel e1 () htitle hf]
    cases hw : env.WriteTo e1 with
    | error err => exact ⟨_, e1, v1, rfl, Or.inr ⟨err, rfl, hw⟩, hs2⟩
    | ok out => exact ⟨_, e1, _, rfl, Or.inl rfl, hs2⟩
  constructor
  · intro args secs halone
    obtain ⟨e1, v1, hf, hs⟩ := forArgs_alone env title htitle fuel args w secs
      (NewEpub title) w (extends_refl env _ _) halone
    exact hrun args e1 v1 secs hf hs
  · intro args halone hinj
    obtain ⟨e1, v1, hf, hs⟩ := forArgs_concat env
      (fun z => ∃ u ∈ args, ∃ x ∈ chainPages env fuel (NewEpub title) u w,
        z = normalizeURL x)
      (by
        rintro x y ⟨u1, hu1, x1, hx1, rfl⟩ ⟨u2, hu2, y1, hy1, rfl⟩ hxy
        exact hinj u1 hu1 u2 hu2 x1 hx1 y1 hy1 hxy)
      title htitle fuel w args (NewEpub title) w (extends_refl env _ _)
      (fun u hu x hx => ⟨u, hu, x, hx, rfl⟩) halone
    exact hrun args e1 v1 _ hf hs

theorem chains_concatenate_witness :
    (∃ r e wf, run envFinite "Book" ["reddit.com/a2", "reddit.com/b1"] world0 3 =
        some (r, some e, wf) ∧
      (r = .ok () ∨ ∃ err, r = .error err ∧ envFinite.WriteTo e = .error err) ∧
      e.sections = ["reddit.com/a2", "reddit.com/b1"].flatMap
        (fun u => chaptersOf (run envFinite "Book" [u] world0 3))) ∧
    (chaptersOf (run envFinite "Book" ["reddit.com/a2", "reddit.com/b1"] world0 3)).map
        Section.title = ["A2", "A3", "B1"] ∧
    (∃ r e wf, run envFinite "Book" ["reddit.com/a2", "reddit.com/b1"] world0 3 =
        some (r, some e, wf) ∧
      (r = .ok () ∨ ∃ err, r = .error err ∧ envFinite.WriteTo e = .error err) ∧
      e.sections.map Section.title = ["A2", "A3", "B1"]) := by
  have h := chains_concatenate envFinite "Book" world0 3 (by decide)
  refine ⟨h.2 ["reddit.com/a2", "reddit.com/b1"] ?_ (by decide), by decide, ?_⟩
  · intro u hu
    rcases List.mem_cons.mp hu with rfl | hu
    · exact ⟨_, _, rfl⟩
    · rcases List.mem_cons.mp hu with rfl | hu
      · exact ⟨_, _, rfl⟩
      · cases hu
  · obtain ⟨r, e, wf, hrun, hr, hs⟩ := h.1 ["reddit.com/a2", "reddit.com/b1"]
      ((chaptersAlone envFinite "Book" 3 ["reddit.com/a2", "reddit.com/b1"] world0).getD [])
      (by decide)
    exact ⟨r, e, wf, hrun, hr, by rw [hs]; decide⟩

/-- C5: with an empty title `run` returns the error `must set title` at once:
the world comes back unchanged (no cache read, no request, nothing written) and
no book exists, whatever the arguments, the world and the fuel. -/
theorem run_empty_title (env : Env) (args : List String) (w : World) (fuel : Nat) :
    run env "" args w fuel = some (.error "must set title", none, w) := by
  simp [run]

/-- C6, as the code has it: a page whose opening post has no title, wherever
it is met in the run (after the chains of any earlier starting identifiers and
any number of passes of the current chain), makes the pass panic with a nil
dereference at the first use of the title; `run` ends by that panic, not by
returning an error, with the book as it was but for its author: no chapter is
appended, no title is made up, and nothing is written. -/
theorem missing_title_panics (env : Env) (title u v : String) (pre post : List String)
    (e1 e2 : Epub) (w w1 w2 w3 : World) (doc : Document) (dpost : Data) (k fuel : Nat)
    (htitle : title ≠ "")
    (hpre : forArgs env fuel pre (NewEpub title) w = some (.ok (), e1, w1))
    (hsteps : chainSteps env k e1 u w1 = some (e2, v, w2)) (hv : v ≠ "")
    (hfuel : k < fuel)
    (hf : fetchBody env v w2 = (.ok doc, w3)) (hp : openingPost doc = .ok dpost)
    (hT : dpost.Title = none) :
    (∀ e : Epub, iteration env e v w2 = (.panic nilDeref, e.SetAuthor dpost.Author, w3) ∧
      (e.SetAuthor dpost.Author).sections = e.sections) ∧
    run env title (pre ++ u :: post) w fuel =
      some (.panic nilDeref, some (e2.SetAuthor dpost.Author), w3) ∧
    w3.stdout = w.stdout := by
  have hit := fun e : Epub => iteration_of_missing_title env e v doc dpost w2 w3 hf hp hT
  obtain ⟨hrun, hout⟩ := run_panic_at env title u v nilDeref pre post e1 e2 _ w w1 w2 w3 k
    fuel htitle hpre hsteps hv hfuel (hit e2)
  exact ⟨fun e => ⟨hit e, rfl⟩, hrun, hout⟩

theorem missing_title_panics_witness :
    run envToNt "Book" (["reddit.com/b1"] ++ "reddit.com/a1" :: ["reddit.com/a3"]) world0 2 =
        some (.panic nilDeref, some (ntStepA1.2.1.SetAuthor "ann"),
          (fetchBody envToNt "reddit.com/nt" ntStepA1.2.2).2) ∧
      (ntStepA1.2.1.SetAuthor "ann").sections.map Section.title = ["B1", "A1"] :=
  have h := missing_title_panics envToNt "Book" "reddit.com/a1" "reddit.com/nt"
    ["reddit.com/b1"] ["reddit.com/a3"] ntStepB.2.1 ntStepA1.2.1 world0 ntStepB.2.2
    ntStepA1.2.2 (fetchBody envToNt "reddit.com/nt" ntStepA1.2.2).2 docNoTitle
    ⟨"ann", none, some "b", none⟩ 1 2 (by decide) rfl rfl (by decide) (by decide) rfl rfl rfl
  ⟨h.2.1, by decide⟩

/-- C6 fails as stated: on a page without title `run` ends by a panic, and
for no amount of fuel does it return an error. -/
theorem missing_title_no_error :
    (run demoEnv "Book" ["reddit.com/nt"] world0 1).map (fun r => r.1) =
        some (.panic nilDeref) ∧
      ¬ ∃ (fuel : Nat) (err : Error) (r : Option Epub × World),
        run demoEnv "Book" ["reddit.com/nt"] world0 fuel = some (.error err, r) := by
  refine ⟨by decide, ?_⟩
  rintro ⟨fuel, err, r, h⟩
  cases fuel with
  | zero => simp [run, forArgs, chain] at h
  | succ n =>
    have hp := run_missing_title demoEnv "Book" "reddit.com/nt" [] world0
      (fetchBody demoEnv "reddit.com/nt" world0).2 docNoTitle
      ⟨"ann", none, some "b", none⟩ n (by decide) (by decide) rfl rfl rfl
    rw [hp] at h
    simp at h

/-- C7, as the code has it: for a decoded page with an opening post and a
comment listing, the chapter source text is built without failure exactly when
the post has its title and its selftext and every comment by the post's author
has its body; comments by others may lack one. -/
theorem chapter_source_succeeds_iff (u : String) (post : Data) (k0 kind0 kind1 : String)
    (more cs : List Child) (tail : Document) :
    (∃ text, chapterSource u
        (⟨⟨⟨post, k0⟩ :: more⟩, kind0⟩ :: ⟨⟨cs⟩, kind1⟩ :: tail) = .ok text) ↔
      (post.Title ≠ none ∧ post.Selftext ≠ none ∧
        ∀ c ∈ cs, c.Data.Author = post.Author → c.Data.Body ≠ none) := by
  constructor
  · rintro ⟨text, h⟩
    simp only [chapterSource, openingPost, chapterSourceOf] at h
    cases hT : post.Title with
    | none => simp [hT] at h
    | some t =>
      cases hS : post.Selftext with
      | none => simp [hT, hS] at h
      | some b =>
        refine ⟨by simp, by simp, ?_⟩
        intro c hc hca hcb
        rw [hT, hS] at h
        simp only [appendComments_panic post.Author cs _ ⟨c, hc, hca, hcb⟩] at h
        cases h
  · rintro ⟨hT, hS, hb⟩
    obtain ⟨t, hT⟩ := Option.ne_none_iff_exists'.mp hT
    obtain ⟨b, hS⟩ := Option.ne_none_iff_exists'.mp hS
    have hb2 : ∀ c ∈ cs, c.Data.Author = post.Author →
        c.Data.Body = some (c.Data.Body.getD "") := by
      intro c hc hca
      obtain ⟨x, hx⟩ := Option.ne_none_iff_exists'.mp (hb c hc hca)
      simp [hx]
    have hsrc := chapterSourceOf_ok u t b post ⟨⟨⟨post, k0⟩ :: more⟩, kind0⟩ kind1 cs tail
      (fun c => c.Data.Body.getD "") hT hS hb2
    have hcs : chapterSource u
        (⟨⟨⟨post, k0⟩ :: more⟩, kind0⟩ :: ⟨⟨cs⟩, kind1⟩ :: tail) =
        chapterSourceOf u post
          (⟨⟨⟨post, k0⟩ :: more⟩, kind0⟩ :: ⟨⟨cs⟩, kind1⟩ :: tail) := by
      simp only [chapterSource, openingPost]
    rw [hcs, hsrc]
    exact ⟨_, rfl⟩

theorem chapter_source_succeeds_iff_witness :
    ∃ text, chapterSource "u" docAnn = .ok text :=
  (chapter_source_succeeds_iff "u" ⟨"ann", none, some "b", some "t"⟩ "t3" "Listing"
    "Listing" [] [mkComment "ann" (some "c1"), mkComment "bob" none] []).mpr (by decide)

/-- C7 fails as stated: the opening post of `docNilBody` has title and
selftext, yet a comment by its author without body makes the assembly panic. -/
theorem chapter_source_nil_body_panics :
    openingPost docNilBody = .ok ⟨"ann", none, some "b", some "t"⟩ ∧
      chapterSource "u" docNilBody = .panic nilDeref := by
  decide

/-- C8, as the code has it: when a call `getURL(u)` succeeds, an immediate
second call returns the same bytes and issues no request, so the two calls
issue at most one request in total; a cache hit returns the stored bytes
without touching the network; and a miss issues one request and stores the
response under the path made of the hash of the normalized URL (`u` with
`www.reddit.com` replaced by `old.reddit.com` and `.json` appended). -/
theorem getURL_twice (env : Env) (u b : String) (w w1 : World)
    (h : getURL env u w = (.ok b, w1)) :
    getURL env u w1 = (.ok b, { w1 with cacheReads := w1.cacheReads + 1 }) ∧
    (getURL env u w1).2.netCalls ≤ w.netCalls + 1 ∧
    (∀ c, w.files ("/tmp/redditepub-" ++
        env.Sum256Hex (ReplaceAll u "www.reddit.com" "old.reddit.com" ++ ".json") ++
        ".json") = some c → b = c ∧ w1.netCalls = w.netCalls ∧ w1.files = w.files) ∧
    (w.files ("/tmp/redditepub-" ++
        env.Sum256Hex (ReplaceAll u "www.reddit.com" "old.reddit.com" ++ ".json") ++
        ".json") = none →
      w1.netCalls = w.netCalls + 1 ∧
      env.transport (ReplaceAll u "www.reddit.com" "old.reddit.com" ++ ".json") = .ok b ∧
      w1.files ("/tmp/redditepub-" ++
        env.Sum256Hex (ReplaceAll u "www.reddit.com" "old.reddit.com" ++ ".json") ++
        ".json") = some b) := by
  unfold getURL at h
  simp only [normalizeURL, cachePath] at h
  split at h
  · simp at h
  · next hrf =>
    split at h
    · next c hc =>
      simp only [Prod.mk.injEq, Outcome.ok.injEq] at h
      obtain ⟨rfl, rfl⟩ := h
      refine ⟨?_, ?_, ?_, ?_⟩
      · simp [getURL, normalizeURL, cachePath, hrf, hc]
      · simp [getURL, normalizeURL, cachePath, hrf, hc]
      · intro c2 hc2
        rw [hc] at hc2
        simp at hc2
        simp [hc2]
      · intro hn
        rw [hc] at hn
        cases hn
    · next hc =>
      split at h
      · simp at h
      · next hreq =>
        split at h
        · simp at h
        · next body htr =>
          split at h
          · simp at h
          · next hwf =>
            simp only [Prod.mk.injEq, Outcome.ok.injEq] at h
            obtain ⟨rfl, rfl⟩ := h
            refine ⟨?_, ?_, ?_, ?_⟩
            · simp [getURL, normalizeURL, cachePath, hrf]
            · simp [getURL, normalizeURL, cachePath, hrf]
            · intro c2 hc2
              rw [hc] at hc2
              cases hc2
            · intro _
              simp [htr]

theorem getURL_twice_witness :
    (getURL demoEnv "www.reddit.com/a1" (getURL demoEnv "www.reddit.com/a1" world0).2).1 =
        .ok "old.reddit.com/a1.json" ∧
      (getURL demoEnv "www.reddit.com/a1"
        (getURL demoEnv "www.reddit.com/a1" world0).2).2.netCalls ≤ world0.netCalls + 1 :=
  have h := getURL_twice demoEnv "www.reddit.com/a1" "old.reddit.com/a1.json" world0
    (getURL demoEnv "www.reddit.com/a1" world0).2 rfl
  ⟨by rw [h.1], h.2.1⟩

/-- C8 fails as stated: with the network down, two calls in succession issue
two requests; and with a full disk the first call returns an error and the
second returns the bytes of the file that the failed write left. -/
theorem getURL_twice_two_requests :
    ((getURL envDown "reddit.com/a1" world0).1 = .error "connection refused" ∧
      (getURL envDown "reddit.com/a1" (getURL envDown "reddit.com/a1" world0).2).2.netCalls
        = world0.netCalls + 2) ∧
    ((getURL envDiskFull "reddit.com/a1" world0).1 = .error "no space left on device" ∧
      (getURL envDiskFull "reddit.com/a1" (getURL envDiskFull "reddit.com/a1" world0).2).1
        = .ok "") := by
  decide

/-- C9: at any step of the run (after the chains of any earlier starting
identifiers `pre` and any number `k` of passes of the chain of `u`), when the
fetch of the page `v` fails, or its decoding fails, or the parse of its
rendered chapter for the link scan fails, `run` returns that very error in the
world as the failing pass left it: one cache read and at most one request for
`v`, no later page and no later starting identifier fetched, and standard
output as it was before the run, whatever chapters the book already holds (in
the third case the chapter of `v` itself is among them). Conversely a pass
returns an error only in one of these three ways. -/
theorem fail_fast (env : Env) (title u v : String) (pre post : List String) (err : Error)
    (e1 e2 : Epub) (w w1 w2 w3 : World) (k fuel : Nat)
    (htitle : title ≠ "")
    (hpre : forArgs env fuel pre (NewEpub title) w = some (.ok (), e1, w1))
    (hsteps : chainSteps env k e1 u w1 = some (e2, v, w2)) (hv : v ≠ "")
    (hfuel : k < fuel) :
    (getURL env v w2 = (.error err, w3) →
      run env title (pre ++ u :: post) w fuel = some (.error err, some e2, w3) ∧
      w3.stdout = w.stdout ∧ w3.cacheReads = w2.cacheReads + 1 ∧
      w3.netCalls ≤ w2.netCalls + 1) ∧
    (∀ b, getURL env v w2 = (.ok b, w3) → env.Unmarshal b = .error err →
      run env title (pre ++ u :: post) w fuel = some (.error err, some e2, w3) ∧
      w3.stdout = w.stdout ∧ w3.cacheReads = w2.cacheReads + 1 ∧
      w3.netCalls ≤ w2.netCalls + 1) ∧
    (∀ doc body, fetchBody env v w2 = (.ok doc, w3) → chapterSource v doc = .ok body →
      env.links (env.Run body) = .error err →
      ∃ dpost t, openingPost doc = .ok dpost ∧ dpost.Title = some t ∧
        run env title (pre ++ u :: post) w fuel =
          some (.error err,
            some ((e2.SetAuthor dpost.Author).AddSection (env.Run body) t), w3) ∧
        w3.stdout = w.stdout ∧ w3.cacheReads = w2.cacheReads + 1 ∧
        w3.netCalls ≤ w2.netCalls + 1) ∧
    (∀ e3, iteration env e2 v w2 = (.error err, e3, w3) →
      getURL env v w2 = (.error err, w3) ∨
      (∃ b, getURL env v w2 = (.ok b, w3) ∧ env.Unmarshal b = .error err) ∨
      (∃ doc body, fetchBody env v w2 = (.ok doc, w3) ∧ chapterSource v doc = .ok body ∧
        env.links (env.Run body) = .error err)) := by
  refine ⟨?_, ?_, ?_, fun e3 hfail => iteration_error_inv env e2 e3 v err w2 w3 hfail⟩
  · intro hg
    exact run_error_at env title u v pre post err e1 e2 e2 w w1 w2 w3 k fuel htitle hpre
      hsteps hv hfuel (iteration_of_getURL_error env e2 v err w2 w3 hg)
  · intro b hg hd
    exact run_error_at env title u v pre post err e1 e2 e2 w w1 w2 w3 k fuel htitle hpre
      hsteps hv hfuel (iteration_of_unmarshal_error env e2 v b err w2 w3 hg hd)
  · intro doc body hf hsrc hls
    obtain ⟨dpost, t, hp, hT, hsrcOf⟩ := chapterSource_ok_inv v body doc hsrc
    exact ⟨dpost, t, hp, hT,
      run_error_at env title u v pre post err e1 e2 _ w w1 w2 w3 k fuel htitle hpre
        hsteps hv hfuel
        (iteration_of_links_error env e2 v t body err doc dpost w2 w3 hf hp hT hsrcOf hls)⟩

theorem fail_fast_witness :
    run envDown "Book" ([] ++ "reddit.com/a1" :: ["reddit.com/b1"]) world0 1 =
        some (.error "connection refused", some (NewEpub "Book"),
          (getURL envDown "reddit.com/a1" world0).2) ∧
    run envBroken "Book" (["reddit.com/b1"] ++ "reddit.com/a1" :: ["reddit.com/a3"]) world0 3 =
        some (.error "unexpected end of JSON input", some brokenStepA1.2.1,
          (getURL envBroken "reddit.com/a2" brokenStepA1.2.2).2) ∧
    (∃ e3, run envBadLinks "Book" ([] ++ "reddit.com/a1" :: ["reddit.com/b1"]) world0 2 =
        some (.error "malformed", some e3,
          (fetchBody envBadLinks "reddit.com/a2" badStepA1.2.2).2) ∧
      e3.sections.map Section.title = ["A1", "A2"]) := by
  have hdown := (fail_fast envDown "Book" "reddit.com/a1" "reddit.com/a1" []
    ["reddit.com/b1"] "connection refused" (NewEpub "Book") (NewEpub "Book") world0 world0
    world0 (getURL envDown "reddit.com/a1" world0).2 0 1
    (by decide) rfl rfl (by decide) (by decide)).1 rfl
  have hdecode := (fail_fast envBroken "Book" "reddit.com/a1" "reddit.com/a2"
    ["reddit.com/b1"] ["reddit.com/a3"] "unexpected end of JSON input" brokenStepB.2.1
    brokenStepA1.2.1 world0 brokenStepB.2.2 brokenStepA1.2.2
    (getURL envBroken "reddit.com/a2" brokenStepA1.2.2).2 1 3
    (by decide) rfl rfl (by decide) (by decide)).2.1 "reddit.com/a2.json" rfl rfl
  have hscan := (fail_fast envBadLinks "Book" "reddit.com/a1" "reddit.com/a2" []
    ["reddit.com/b1"] "malformed" (NewEpub "Book") badStepA1.2.1 world0 world0
    badStepA1.2.2 (fetchBody envBadLinks "reddit.com/a2" badStepA1.2.2).2 1 2
    (by decide) rfl rfl (by decide) (by decide)).2.2.1 (mkDoc "ann" "A2" "y" [])
    "# A2\n\ny\n\n[reddit.com/a2](reddit.com/a2)" rfl (by decide) rfl
  obtain ⟨dpost, t, hp, hT, hrun, _⟩ := hscan
  have hdp : dpost = ⟨"ann", none, some "y", some "A2"⟩ := by
    have : openingPost (mkDoc "ann" "A2" "y" []) = .ok ⟨"ann", none, some "y", some "A2"⟩ :=
      rfl
    rw [this] at hp
    cases hp
    rfl
  subst hdp
  cases hT
  exact ⟨hdown.1, hdecode.1, _, hrun, by decide⟩

/-- C10: when the page `u` contains `reddit.com`, its lower-cased form
contains `next` or `forward`, and the links of its rendered chapter are some
links `pre`, none of which qualifies, followed by the footer link (text `u`,
target `u`), the scan resolves to `u` itself and every pass for `u` ends with
`u` as continuation: after any number `k` of passes the loop is about to fetch
`u` again, having read the cache `k` times, and `run` on `u` does not end for
any fuel. -/
theorem footer_self_link (env : Env) (title u body : String) (pre : List Link)
    (doc : Document) (w w1 : World) (htitle : title ≠ "")
    (hhost : Contains u "reddit.com" = true)
    (hlow : Contains (env.ToLower u) "next" = true ∨
      Contains (env.ToLower u) "forward" = true)
    (hf : fetchBody env u w = (.ok doc, w1))
    (hsrc : chapterSource u doc = .ok body)
    (hlinks : env.links (env.Run body) = .ok (pre ++ [⟨u, u⟩]))
    (hpre : ∀ x ∈ pre, ¬ ((Contains (env.ToLower x.Text) "next" = true ∨
      Contains (env.ToLower x.Text) "forward" = true) ∧
      Contains x.href "reddit.com" = true)) :
    resolveNext env (pre ++ [⟨u, u⟩]) = u ∧
    (∀ e : Epub, (iteration env e u w).1 = .ok u) ∧
    (∀ (k : Nat) (e : Epub), ∃ e1 w2, chainSteps env k e u w = some (e1, u, w2) ∧
      w2.cacheReads = w.cacheReads + k) ∧
    (∀ fuel : Nat, run env title [u] w fuel = none) := by
  have hu : u ≠ "" := contains_ne_empty u hhost
  have hq : qualifies env ⟨u, u⟩ = true := by
    simpa [qualifies, textMatches] using And.intro hlow hhost
  have hnq : ∀ x ∈ pre, qualifies env x = false := by
    intro x hx
    cases hqx : qualifies env x with
    | false => rfl
    | true =>
      exfalso
      apply hpre x hx
      simpa [qualifies, textMatches] using hqx
  have hself : resolveNext env (pre ++ [⟨u, u⟩]) = u := resolveNext_first env pre _ [] hnq hq
  obtain ⟨post, t, hp, hT, hsrcOf⟩ := chapterSource_ok_inv u body doc hsrc
  obtain ⟨b, hg, hun⟩ := fetchBody_ok_inv env u doc w w1 hf
  obtain ⟨hrf, hc1⟩ := getURL_ok_cached env u b w w1 hg
  have hfr := (fetchBody_frame env u w).2.1
  rw [hf] at hfr
  simp only at hfr
  have hit : ∀ e : Epub, iteration env e u w =
      (.ok u, (e.SetAuthor post.Author).AddSection (env.Run body) t, w1) := by
    intro e
    rw [iteration_of_fetch env e u t body doc post _ w w1 hf hp hT hsrcOf hlinks, hself]
  obtain ⟨hloop, hsteps⟩ := self_link_loop env u b t body doc post _ hu hrf hun hp hT hsrcOf
    hlinks hself
  refine ⟨hself, fun e => by rw [hit e], ?_, ?_⟩
  · intro k e
    cases k with
    | zero => exact ⟨e, w, rfl, rfl⟩
    | succ k =>
      obtain ⟨e1, w2, h1, h2⟩ := hsteps k
        ((e.SetAuthor post.Author).AddSection (env.Run body) t) w1 hc1
      refine ⟨e1, w2, ?_, by rw [h2, hfr]; omega⟩
      simp only [chainSteps, hu, if_false, hit e]
      exact h1
  · intro fuel
    have hchain : chain env fuel (NewEpub title) u w = none := by
      cases fuel with
      | zero => rfl
      | succ n =>
        rw [chain_step env n _ _ u u w w1 hu (hit _)]
        exact hloop n _ w1 hc1
    simp [run, htitle, forArgs, hchain]

theorem footer_self_link_witness :
    resolveNext envLoop ([] ++ [⟨"reddit.com/next1", "reddit.com/next1"⟩]) =
        "reddit.com/next1" ∧
      run envLoop "Book" ["reddit.com/next1"] world0 9 = none :=
  have h := footer_self_link envLoop "Book" "reddit.com/next1"
    "# T\n\nx\n\n[reddit.com/next1](reddit.com/next1)" [] (mkDoc "ann" "T" "x" []) world0
    (fetchBody envLoop "reddit.com/next1" world0).2 (by decide) (by decide)
    (Or.inl (by decide)) rfl (by decide) rfl (by simp)
  ⟨h.1, h.2.2.2 9⟩

end RedditEpub
